import Mathlib

/-!
# GenericQuickSort: a shallow embedding of `genericQuickSort.c`

The buffer is a list of storage cells (bytes); an element slot is `s`
consecutive cells. Addresses are byte offsets from the start of the buffer,
kept as integers so that pointer arithmetic such as `pivot - s` can leave the
buffer, and every memory access is bounds-checked. The comparator receives the
contents of the two slots it is pointed at.

The three loops of the program (the two nested `while` loops and the recursion)
take a fuel argument; running out of fuel is reported as a fault of its own
and is distinct from an out-of-range access. The functions additionally
keep a chronological log of the calls they make (`quicksort_inner`, the
comparator, `swap`); the log never influences the memory.
-/

namespace GenericQuickSort

/-! ## Memory -/

/-- The slot of `s` cells at offset `a` lies inside the buffer. -/
def inBounds {α : Type} (mem : List α) (a : Int) (s : Nat) : Prop :=
  0 ≤ a ∧ a + (s : Int) ≤ (mem.length : Int)

instance {α : Type} (mem : List α) (a : Int) (s : Nat) : Decidable (inBounds mem a s) := by
  unfold inBounds; infer_instance

/-- The `s` cells starting at offset `a` (the source operand of `memcpy`). -/
def memRead {α : Type} (mem : List α) (a : Int) (s : Nat) : List α :=
  (mem.drop a.toNat).take s

/-- The buffer after the cells `v` are stored from offset `a` on
(the destination operand of `memcpy`). -/
def memWrite {α : Type} (mem : List α) (a : Int) (v : List α) : List α :=
  mem.take a.toNat ++ v ++ mem.drop (a.toNat + v.length)

/-- Generic swap, `swap(a, b, s)`: the three `memcpy` calls through the scratch
area `temp`. `none` when one of the two slots is not inside the buffer. -/
def swap {α : Type} (mem : List α) (a b : Int) (s : Nat) : Option (List α) :=
  if inBounds mem a s ∧ inBounds mem b s then
    let temp := memRead mem a s                          -- memcpy(temp, a, s)
    let mem1 := memWrite mem a (memRead mem b s)         -- memcpy(a, b, s)
    some (memWrite mem1 b temp)                          -- memcpy(b, temp, s)
  else none

/-! ## The engine -/

/-- What the engine does, in the order it does it. -/
inductive Event where
  | call (start end_ : Int)
  | compare (a b : Int)
  | swap (a b : Int)
  deriving DecidableEq

/-- How a run can fail. An out-of-range access keeps the log up to and
including the call that made the access. -/
inductive Fault where
  | outOfBounds (log : List Event)
  | outOfFuel
  deriving DecidableEq

/-- The buffer together with the log of calls made so far. -/
structure State (α : Type) where
  mem : List α
  log : List Event
  deriving DecidableEq

/-- The inner loop of the partition (lines 37-41):
`while (compare(check, pivot) > 0) { swap(check, pivot - s); swap(pivot, pivot - s); pivot -= s; }`.
Returns the state and the pivot cursor when the loop ends. -/
def shiftLoop {α : Type} (compare : List α → List α → Int) (s : Nat) (check : Int) :
    Nat → State α → Int → Except Fault (State α × Int)
  | 0, _, _ => .error .outOfFuel
  | fuel + 1, st, pivot =>
    let log1 := st.log ++ [Event.compare check pivot]
    if inBounds st.mem check s ∧ inBounds st.mem pivot s then
      if compare (memRead st.mem check s) (memRead st.mem pivot s) > 0 then
        let log2 := log1 ++ [Event.swap check (pivot - s)]
        match swap st.mem check (pivot - s) s with
        | none => .error (.outOfBounds log2)
        | some mem1 =>
          let log3 := log2 ++ [Event.swap pivot (pivot - s)]
          match swap mem1 pivot (pivot - s) s with
          | none => .error (.outOfBounds log3)
          | some mem2 => shiftLoop compare s check fuel ⟨mem2, log3⟩ (pivot - s)
      else .ok (⟨st.mem, log1⟩, pivot)
    else .error (.outOfBounds log1)

/-- The main loop of the partition (lines 36-43):
`while (check < pivot) { <inner loop>; check += s; }`.
Returns the state and the final pivot cursor. -/
def partitionLoop {α : Type} (compare : List α → List α → Int) (s : Nat) :
    Nat → State α → Int → Int → Except Fault (State α × Int)
  | 0, _, _, _ => .error .outOfFuel
  | fuel + 1, st, check, pivot =>
    if check < pivot then
      match shiftLoop compare s check fuel st pivot with
      | .error e => .error e
      | .ok (st1, pivot1) => partitionLoop compare s fuel st1 (check + s) pivot1
    else .ok (st, pivot)

/-- The function `quicksort_inner(start, end, s, compare)` (lines 25-54).
The test `end - start <= s` compares a pointer difference with a `size_t`, so a
negative difference is converted to a huge unsigned value and fails the test. -/
def quicksort_inner {α : Type} (compare : List α → List α → Int) (s : Nat) :
    Nat → State α → Int → Int → Except Fault (State α)
  | 0, _, _, _ => .error .outOfFuel
  | fuel + 1, st, start, end_ =>
    let st0 : State α := ⟨st.mem, st.log ++ [Event.call start end_]⟩
    -- recursion break:
    if 0 ≤ end_ - start ∧ end_ - start ≤ s then .ok st0
    else
      -- check = start, pivot = end - s
      match partitionLoop compare s fuel st0 start (end_ - s) with
      | .error e => .error e
      | .ok (st1, pivot) =>
        if pivot - start < end_ - pivot then
          match quicksort_inner compare s fuel st1 start pivot with
          | .error e => .error e
          | .ok st2 => quicksort_inner compare s fuel st2 pivot end_
        else
          match quicksort_inner compare s fuel st1 pivot end_ with
          | .error e => .error e
          | .ok st2 => quicksort_inner compare s fuel st2 start pivot

/-- The function `quicksort(arr, l, s, compare)` (lines 59-61): the buffer
`arr` starts at offset 0 and the region passed on is `[arr, arr + l * s)`. -/
def quicksort {α : Type} (fuel : Nat) (arr : List α) (l s : Nat)
    (compare : List α → List α → Int) : Except Fault (State α) :=
  quicksort_inner compare s fuel ⟨arr, []⟩ 0 (0 + ((l * s : Nat) : Int))

/-! ## Specification vocabulary -/

/-- The element in slot number `k` of a buffer of `s`-cell elements. -/
def slot {α : Type} (s : Nat) (mem : List α) (k : Nat) : List α :=
  memRead mem ((k * s : Nat) : Int) s

/-- A comparator that is a strict weak order on the elements satisfying `P`. -/
structure ValidOn {E : Type} (compare : E → E → Int) (P : E → Prop) : Prop where
  refl : ∀ a, P a → compare a a = 0
  antisymm : ∀ a b, P a → P b → (0 < compare a b ↔ compare b a < 0)
  trans : ∀ a b c, P a → P b → P c → compare a b ≤ 0 → compare b c ≤ 0 → compare a c ≤ 0

/-- The buffer `mem'` holds the elements of `mem` rearranged inside the slots
`[a, b)`; every other slot is untouched. -/
def Rearr {α : Type} (s a b : Nat) (mem mem' : List α) : Prop :=
  mem'.length = mem.length ∧
  ∃ σ : Equiv.Perm Nat, (∀ k, k < a ∨ b ≤ k → σ k = k) ∧ ∀ k, slot s mem' k = slot s mem (σ k)

/-- An event of the partition loop that only concerns slots of the region
`[a, b)` of element indices: a comparison `compare(check, pivot)` with
`check ≤ pivot`, or a swap that is either `swap(check, pivot - s)` with
`check < pivot` or `swap(pivot, pivot - s)`. -/
def PartEventIn (s a b : Nat) : Event → Prop
  | .call _ _ => False
  | .compare x y => ∃ i j : Nat, a ≤ i ∧ i ≤ j ∧ j < b ∧
      x = ((i * s : Nat) : Int) ∧ y = ((j * s : Nat) : Int)
  | .swap x y => ∃ i j : Nat, a ≤ i ∧ a ≤ j ∧ i < b ∧ j < b ∧ (i ≤ j ∨ i = j + 1) ∧
      x = ((i * s : Nat) : Int) ∧ y = ((j * s : Nat) : Int)

/-- The event only concerns slots of the region `[a, b)` of element indices:
a call is on an aligned sub-region, the other events are as in `PartEventIn`. -/
def EventIn (s a b : Nat) : Event → Prop
  | .call x y => ∃ i j : Nat, a ≤ i ∧ i ≤ j ∧ j ≤ b ∧
      x = ((i * s : Nat) : Int) ∧ y = ((j * s : Nat) : Int)
  | .compare x y => PartEventIn s a b (.compare x y)
  | .swap x y => PartEventIn s a b (.swap x y)

/-- The shape of the log of a partition loop on the slots `[a, b)`: a sequence of
steps of the inner loop, each either a call `compare(check, pivot)` with
`a ≤ check ≤ pivot < b` alone (the comparison that ends the inner loop), or such
a call with `check < pivot` followed by `swap(check, pivot - s)` and
`swap(pivot, pivot - s)`. -/
inductive PartLog (s a b : Nat) : List Event → Prop
  | done : PartLog s a b []
  | keep (c p : Nat) (rest : List Event) (hc : a ≤ c) (hcp : c ≤ p) (hp : p < b)
      (h : PartLog s a b rest) :
      PartLog s a b (Event.compare ((c * s : Nat) : Int) ((p * s : Nat) : Int) :: rest)
  | shift (c p : Nat) (rest : List Event) (hc : a ≤ c) (hcp : c < p) (hp : p < b)
      (h : PartLog s a b rest) :
      PartLog s a b (Event.compare ((c * s : Nat) : Int) ((p * s : Nat) : Int) ::
        Event.swap ((c * s : Nat) : Int) (((p - 1) * s : Nat) : Int) ::
        Event.swap ((p * s : Nat) : Int) (((p - 1) * s : Nat) : Int) :: rest)

/-- The shape of the whole log of the engine working inside the slots `[a, b)`:
calls of `quicksort_inner` interleaved with steps of the partition loops. A step
is a call `compare(check, pivot)` with `start ≤ check ≤ pivot` alone, or such a
call with `check < pivot` followed by `swap(check, pivot - s)` and
`swap(pivot, pivot - s)`; in the second case `check` and `pivot - s` are the
same slot or `check` ends before `pivot - s` starts, and `pivot` and
`pivot - s` are two different slots. -/
inductive EngineLog (s a b : Nat) : List Event → Prop
  | done : EngineLog s a b []
  | call (start end_ : Int) (rest : List Event) (h : EngineLog s a b rest) :
      EngineLog s a b (Event.call start end_ :: rest)
  | keep (check pivot : Int) (rest : List Event) (hstart : ((a * s : Nat) : Int) ≤ check)
      (hle : check ≤ pivot) (hend : pivot + (s : Int) ≤ ((b * s : Nat) : Int))
      (h : EngineLog s a b rest) :
      EngineLog s a b (Event.compare check pivot :: rest)
  | shift (check pivot : Int) (rest : List Event) (hstart : ((a * s : Nat) : Int) ≤ check)
      (hlt : check < pivot)
      (hsame : check = pivot - (s : Int) ∨ check + (s : Int) ≤ pivot - (s : Int))
      (hne : pivot ≠ pivot - (s : Int))
      (hend : pivot + (s : Int) ≤ ((b * s : Nat) : Int)) (h : EngineLog s a b rest) :
      EngineLog s a b (Event.compare check pivot :: Event.swap check (pivot - (s : Int)) ::
        Event.swap pivot (pivot - (s : Int)) :: rest)

/-- The shape of the log of one call of `quicksort_inner` on the slots `[a, b)`:
a region of at most one element logs the call alone; a larger region logs the
call, then the events of its partition loop, then the logs of the two recursive
calls on `[a, p)` and `[p, b)`, the call on `[a, p)` being made first exactly
when `p - a < b - p`. -/
inductive CallLog (s : Nat) : Nat → Nat → List Event → Prop
  | leaf (a b : Nat) (hab : a ≤ b) (hsmall : b ≤ a + 1) :
      CallLog s a b [Event.call ((a * s : Nat) : Int) ((b * s : Nat) : Int)]
  | node (a p b : Nat) (part l1 l2 : List Event) (hap : a ≤ p) (hpb : p < b)
      (hbig : a + 2 ≤ b) (hpart : ∀ e ∈ part, PartEventIn s a b e)
      (h1 : CallLog s a p l1) (h2 : CallLog s p b l2) :
      CallLog s a b ([Event.call ((a * s : Nat) : Int) ((b * s : Nat) : Int)] ++ part ++
        (if p - a < b - p then l1 ++ l2 else l2 ++ l1))

/-- The slots `[a, b)` are in ascending order: every earlier element compares
`≤ 0` with every later one. -/
def SortedOn {α : Type} (compare : List α → List α → Int) (s : Nat) (mem : List α)
    (a b : Nat) : Prop :=
  ∀ i j, a ≤ i → i < j → j < b → compare (slot s mem i) (slot s mem j) ≤ 0

/-- Fuel that suffices for `quicksort_inner` on the slots `[a, b)`: one more than
twice the number of elements, or exactly twice when the first element is known
to be strictly below all others (the state right after a degenerate partition). -/
def FuelOK {α : Type} (compare : List α → List α → Int) (s fuel : Nat) (mem : List α)
    (a b : Nat) : Prop :=
  2 * (b - a) + 1 ≤ fuel ∨
    (2 ≤ b - a ∧ 2 * (b - a) ≤ fuel ∧
      ∀ k, a < k → k < b → 0 < compare (slot s mem k) (slot s mem a))

/-- The contract of `quicksort_inner` at a given amount of fuel. -/
def QsSpec {α : Type} (compare : List α → List α → Int) (P : List α → Prop) (s n fuel : Nat) :
    Prop :=
  ∀ (mem : List α) (log : List Event) (a b : Nat),
    mem.length = n * s → (∀ k, k < n → P (slot s mem k)) → a ≤ b → b ≤ n →
    FuelOK compare s fuel mem a b →
    ∃ mem' ext, quicksort_inner compare s fuel ⟨mem, log⟩ ((a * s : Nat) : Int)
          ((b * s : Nat) : Int) = .ok ⟨mem', log ++ ext⟩ ∧
      Rearr s a b mem mem' ∧ SortedOn compare s mem' a b ∧
      (SortedOn compare s mem a b → mem' = mem) ∧ (∀ e ∈ ext, EventIn s a b e) ∧
      CallLog s a b ext ∧ EngineLog s a b ext

/-! ## The comparators of the program -/

/-- Reduction of an integer to the range of a 32-bit signed `int`
(two's complement wrap-around). -/
def wrap32 (x : Int) : Int := (x + 2147483648) % 4294967296 - 2147483648

/-- The `int` stored in the four bytes of a slot, `*((int*)a)`, for a
little-endian two's complement machine with a 4-byte `int`. -/
def readInt (e : List Nat) : Int :=
  wrap32 ((e.getD 0 0 : Nat) + 256 * (e.getD 1 0 : Nat) + 65536 * (e.getD 2 0 : Nat)
    + 16777216 * (e.getD 3 0 : Nat))

/-- The four bytes that hold the `int` value `x` (inverse of `readInt`). -/
def writeInt (x : Int) : List Nat :=
  let u := (x % 4294967296).toNat
  [u % 256, u / 256 % 256, u / 65536 % 256, u / 16777216 % 256]

/-- The function `icmp(a, b)` (lines 68-70): `*((int*)a) - *((int*)b)`, the
subtraction wrapping at 32 bits. -/
def icmp (a b : List Nat) : Int := wrap32 (readInt a - readInt b)

/-- The function `fooCmp(a, b)` (lines 96-98): `icmp` of the `value` fields of
two records `{int id; int value}`. The program keeps a pointer to the record in
the slot and `fooCmp` follows it; here the record itself lies in the slot
(8 bytes, `value` at offset 4), so no heap is modelled. -/
def fooCmp (a b : List Nat) : Int := icmp (a.drop 4) (b.drop 4)

/-! ## Specification vocabulary for the contract -/

/-- The elements of a buffer of `l` slots of `s` cells, in buffer order. -/
def elements {α : Type} (s l : Nat) (mem : List α) : List (List α) :=
  (List.range l).map (slot s mem)

/-- The slot holds an `int` small enough that `icmp` cannot overflow on two
such slots. -/
def IntSlot (e : List Nat) : Prop := -1073741824 ≤ readInt e ∧ readInt e < 1073741824

instance (e : List Nat) : Decidable (IntSlot e) := by
  unfold IntSlot; infer_instance

/-- The record in the slot has a `value` field on which `fooCmp` cannot overflow. -/
def FooSlot (e : List Nat) : Prop := IntSlot (e.drop 4)

instance (e : List Nat) : Decidable (FooSlot e) := by
  unfold FooSlot; infer_instance

/-- The buffer that holds the `int` array `xs`, four bytes per element. -/
def intBuffer (xs : List Int) : List Nat := xs.flatMap writeInt

/-- Reference ascending sort of a list of integers. -/
def referenceSort (xs : List Int) : List Int := xs.insertionSort (· ≤ ·)

/-- An invalid comparator: `compare(a, b) = 1` when `a >= b`, else `-1`, on the
`int` values of the two slots. It returns a positive value on equal elements. -/
def geCmp (a b : List Nat) : Int := if readInt a ≥ readInt b then 1 else -1

/-- The elements in the slots `[a, b)` of a buffer, in buffer order. -/
def regionElements {α : Type} (s a b : Nat) (mem : List α) : List (List α) :=
  (List.range' a (b - a)).map (slot s mem)

/-! ## Memory lemmas -/

theorem getElem?_memRead {α : Type} (mem : List α) (a : Int) (s t : Nat) :
    (memRead mem a s)[t]? = if t < s then mem[a.toNat + t]? else none := by
  unfold memRead
  split
  · next h => rw [List.getElem?_take_of_lt h, List.getElem?_drop]
  · next h => 
    apply List.getElem?_eq_none
    have := List.length_take_le s (List.drop a.toNat mem)
    omega

theorem length_memRead {α : Type} (mem : List α) (a : Int) (s : Nat)
    (h : a.toNat + s ≤ mem.length) : (memRead mem a s).length = s := by
  unfold memRead
  rw [List.length_take, List.length_drop]
  omega

theorem length_memWrite {α : Type} (mem : List α) (a : Int) (v : List α)
    (h : a.toNat + v.length ≤ mem.length) : (memWrite mem a v).length = mem.length := by
  unfold memWrite
  simp only [List.length_append, List.length_take, List.length_drop]
  omega

theorem getElem?_memWrite {α : Type} (mem : List α) (a : Int) (v : List α) (t : Nat)
    (h : a.toNat + v.length ≤ mem.length) :
    (memWrite mem a v)[t]? =
      if a.toNat ≤ t ∧ t < a.toNat + v.length then v[t - a.toNat]? else mem[t]? := by
  unfold memWrite
  have hl : (List.take a.toNat mem).length = a.toNat := by
    rw [List.length_take]; omega
  by_cases h1 : t < a.toNat
  · rw [if_neg (by omega), List.append_assoc, List.getElem?_append_left (by omega),
      List.getElem?_take_of_lt h1]
  · by_cases h2 : t < a.toNat + v.length
    · rw [if_pos (by omega), List.getElem?_append_left (by simp [hl]; omega),
        List.getElem?_append_right (by omega), hl]
    · rw [if_neg (by omega), List.getElem?_append_right (by simp [hl]; omega),
        List.getElem?_drop]
      simp only [List.length_append, hl]
      congr 1
      omega

theorem swap_spec {α : Type} {mem mem' : List α} {a b : Int} {s : Nat}
    (h : swap mem a b s = some mem') :
    inBounds mem a s ∧ inBounds mem b s ∧ mem'.length = mem.length ∧
    ∀ t : Nat, mem'[t]? =
      if b.toNat ≤ t ∧ t < b.toNat + s then mem[a.toNat + (t - b.toNat)]?
      else if a.toNat ≤ t ∧ t < a.toNat + s then mem[b.toNat + (t - a.toNat)]?
      else mem[t]? := by
  unfold swap at h
  split at h
  · next hab =>
    obtain ⟨ha, hb⟩ := hab
    have ha' : a.toNat + s ≤ mem.length := by unfold inBounds at ha; omega
    have hb' : b.toNat + s ≤ mem.length := by unfold inBounds at hb; omega
    have hra := length_memRead mem a s ha'
    have hrb := length_memRead mem b s hb'
    have hl1 := length_memWrite mem a (memRead mem b s) (by omega)
    simp only [Option.some.injEq] at h
    subst h
    refine ⟨ha, hb, ?_, ?_⟩
    · rw [length_memWrite _ _ _ (by omega), hl1]
    · intro t
      rw [getElem?_memWrite _ _ _ _ (by omega), hra]
      split
      · next h1 => rw [getElem?_memRead, if_pos (by omega)]
      · next h1 =>
        rw [getElem?_memWrite _ _ _ _ (by omega), hrb]
        split
        · next h2 => rw [getElem?_memRead, if_pos (by omega)]
        · rfl
  · exact absurd h (by simp)

theorem swap_isSome {α : Type} {mem : List α} {a b : Int} {s : Nat}
    (ha : inBounds mem a s) (hb : inBounds mem b s) : ∃ mem', swap mem a b s = some mem' := by
  unfold swap
  rw [if_pos ⟨ha, hb⟩]
  exact ⟨_, rfl⟩

theorem inBounds_slot {α : Type} {mem : List α} {n s k : Nat} (hlen : mem.length = n * s)
    (hk : k < n) : inBounds mem ((k * s : Nat) : Int) s := by
  have : (k + 1) * s ≤ n * s := Nat.mul_le_mul_right s hk
  rw [Nat.add_mul] at this
  unfold inBounds
  omega

theorem slot_disjoint {s i k t : Nat} (h : i ≠ k) (ht : t < s) :
    ¬ (i * s ≤ k * s + t ∧ k * s + t < i * s + s) := by
  rcases Nat.lt_or_gt_of_ne h with h1 | h1
  · have : (i + 1) * s ≤ k * s := Nat.mul_le_mul_right s h1
    rw [Nat.add_mul] at this
    omega
  · have : (k + 1) * s ≤ i * s := Nat.mul_le_mul_right s h1
    rw [Nat.add_mul] at this
    omega

theorem slot_swap {α : Type} {mem mem' : List α} {s i j : Nat}
    (h : swap mem ((i * s : Nat) : Int) ((j * s : Nat) : Int) s = some mem') (k : Nat) :
    slot s mem' k = slot s mem (Equiv.swap i j k) := by
  obtain ⟨-, -, -, hget⟩ := swap_spec h
  simp only [Int.toNat_ofNat] at hget
  apply List.ext_getElem?
  intro t
  unfold slot
  rw [getElem?_memRead, getElem?_memRead]
  simp only [Int.toNat_ofNat]
  by_cases ht : t < s
  · rw [if_pos ht, if_pos ht, hget]
    by_cases hkj : k = j
    · subst hkj
      rw [if_pos (by omega), Equiv.swap_apply_right]
      congr 1; omega
    · rw [if_neg (slot_disjoint (Ne.symm hkj) ht)]
      by_cases hki : k = i
      · subst hki
        rw [if_pos (by omega), Equiv.swap_apply_left]
        congr 1; omega
      · rw [if_neg (slot_disjoint (Ne.symm hki) ht), Equiv.swap_apply_of_ne_of_ne hki hkj]
  · rw [if_neg ht, if_neg ht]

theorem Rearr.refl {α : Type} (s a b : Nat) (mem : List α) : Rearr s a b mem mem :=
  ⟨rfl, Equiv.refl _, fun _ _ => rfl, fun _ => rfl⟩

theorem Rearr.trans {α : Type} {s a b : Nat} {m1 m2 m3 : List α}
    (h1 : Rearr s a b m1 m2) (h2 : Rearr s a b m2 m3) : Rearr s a b m1 m3 := by
  obtain ⟨hl1, σ1, hf1, hs1⟩ := h1
  obtain ⟨hl2, σ2, hf2, hs2⟩ := h2
  refine ⟨hl2.trans hl1, σ2.trans σ1, ?_, ?_⟩
  · intro k hk
    simp only [Equiv.trans_apply]
    rw [hf2 k hk, hf1 k hk]
  · intro k
    simp only [Equiv.trans_apply]
    rw [hs2, hs1]

theorem Rearr.widen {α : Type} {s a b a' b' : Nat} {m1 m2 : List α}
    (h : Rearr s a b m1 m2) (ha : a' ≤ a) (hb : b ≤ b') : Rearr s a' b' m1 m2 := by
  obtain ⟨hl, σ, hf, hs⟩ := h
  exact ⟨hl, σ, fun k hk => hf k (by omega), hs⟩

theorem perm_maps_region {σ : Equiv.Perm Nat} {a b : Nat}
    (hf : ∀ k, k < a ∨ b ≤ k → σ k = k) {k : Nat} (hk : a ≤ k ∧ k < b) :
    a ≤ σ k ∧ σ k < b := by
  by_contra hcon
  have h1 : σ (σ k) = σ k := hf (σ k) (by omega)
  have h2 : σ k = k := σ.injective h1
  omega

theorem Rearr.outside {α : Type} {s a b : Nat} {m1 m2 : List α}
    (h : Rearr s a b m1 m2) {k : Nat} (hk : k < a ∨ b ≤ k) : slot s m2 k = slot s m1 k := by
  obtain ⟨-, σ, hf, hs⟩ := h
  rw [hs, hf k hk]

theorem Rearr.forall_region {α : Type} {s a b : Nat} {m1 m2 : List α}
    (h : Rearr s a b m1 m2) {u w : Nat} (hu : u ≤ a) (hw : b ≤ w) (Q : List α → Prop)
    (hQ : ∀ k, u ≤ k → k < w → Q (slot s m1 k)) :
    ∀ k, u ≤ k → k < w → Q (slot s m2 k) := by
  obtain ⟨-, σ, hf, hs⟩ := h
  intro k hk1 hk2
  rw [hs]
  by_cases hin : a ≤ k ∧ k < b
  · have := perm_maps_region hf hin
    exact hQ _ (by omega) (by omega)
  · rw [hf k (by omega)]
    exact hQ k hk1 hk2

theorem Rearr.of_swap {α : Type} {mem mem' : List α} {s a b i j : Nat}
    (h : swap mem ((i * s : Nat) : Int) ((j * s : Nat) : Int) s = some mem')
    (hi : a ≤ i ∧ i < b) (hj : a ≤ j ∧ j < b) : Rearr s a b mem mem' := by
  refine ⟨(swap_spec h).2.2.1, Equiv.swap i j, ?_, slot_swap h⟩
  intro k hk
  exact Equiv.swap_apply_of_ne_of_ne (by omega) (by omega)

theorem addr_pred {p s : Nat} (hp : 0 < p) :
    ((p * s : Nat) : Int) - (s : Int) = (((p - 1) * s : Nat) : Int) := by
  obtain ⟨q, rfl⟩ : ∃ q, p = q + 1 := ⟨p - 1, by omega⟩
  simp only [Nat.add_sub_cancel, Nat.add_mul, Nat.one_mul]
  push_cast
  ring

theorem addr_succ {c s : Nat} :
    ((c * s : Nat) : Int) + (s : Int) = (((c + 1) * s : Nat) : Int) := by
  simp only [Nat.add_mul, Nat.one_mul]
  push_cast
  ring

theorem addr_lt {c p s : Nat} (hs : 0 < s) :
    ((c * s : Nat) : Int) < ((p * s : Nat) : Int) ↔ c < p := by
  rw [Int.ofNat_lt]
  exact Nat.mul_lt_mul_right hs

/-! ## The partition loops and the recursion -/

theorem PartEventIn.widenPart {s a b a' b' : Nat} {e : Event} (h : PartEventIn s a b e)
    (ha : a' ≤ a) (hb : b ≤ b') : PartEventIn s a' b' e := by
  cases e with
  | call x y => exact h
  | compare x y =>
    obtain ⟨i, j, h1, h2, h3, h4, h5⟩ := h
    exact ⟨i, j, by omega, h2, by omega, h4, h5⟩
  | swap x y =>
    obtain ⟨i, j, h1, h2, h3, h4, h5, h6, h7⟩ := h
    exact ⟨i, j, by omega, by omega, by omega, by omega, h5, h6, h7⟩

theorem EventIn.of_part {s a b : Nat} {e : Event} (h : PartEventIn s a b e) :
    EventIn s a b e := by
  cases e with
  | call x y => exact h.elim
  | compare x y => exact h
  | swap x y => exact h

theorem EventIn.widenEvent {s a b a' b' : Nat} {e : Event} (h : EventIn s a b e)
    (ha : a' ≤ a) (hb : b ≤ b') : EventIn s a' b' e := by
  cases e with
  | call x y =>
    obtain ⟨i, j, h1, h2, h3, h4, h5⟩ := h
    exact ⟨i, j, by omega, h2, by omega, h4, h5⟩
  | compare x y => exact @PartEventIn.widenPart s a b a' b' (Event.compare x y) h ha hb
  | swap x y => exact @PartEventIn.widenPart s a b a' b' (Event.swap x y) h ha hb

theorem PartLog.append_steps {s a b : Nat} {l1 l2 : List Event} (h1 : PartLog s a b l1)
    (h2 : PartLog s a b l2) : PartLog s a b (l1 ++ l2) := by
  induction h1 with
  | done => exact h2
  | keep c p rest hc hcp hp _ ih => exact PartLog.keep c p _ hc hcp hp ih
  | shift c p rest hc hcp hp _ ih => exact PartLog.shift c p _ hc hcp hp ih

theorem PartLog.all_events {s a b : Nat} {l : List Event} (h : PartLog s a b l) :
    ∀ e ∈ l, PartEventIn s a b e := by
  induction h with
  | done => intro e he; exact absurd he (List.not_mem_nil e)
  | keep c p rest hc hcp hp _ ih =>
    intro e he
    rcases List.mem_cons.1 he with rfl | he
    · exact ⟨c, p, hc, hcp, hp, rfl, rfl⟩
    · exact ih e he
  | shift c p rest hc hcp hp _ ih =>
    intro e he
    rcases List.mem_cons.1 he with rfl | he
    · exact ⟨c, p, hc, Nat.le_of_lt hcp, hp, rfl, rfl⟩
    · rcases List.mem_cons.1 he with rfl | he
      · exact ⟨c, p - 1, hc, by omega, by omega, by omega, Or.inl (by omega), rfl, rfl⟩
      · rcases List.mem_cons.1 he with rfl | he
        · exact ⟨p, p - 1, by omega, by omega, by omega, by omega, Or.inr (by omega),
            rfl, rfl⟩
        · exact ih e he

theorem Rearr.pres_P {α : Type} {s a b n : Nat} {m1 m2 : List α} (h : Rearr s a b m1 m2)
    (hb : b ≤ n) {P : List α → Prop} (hP : ∀ k, k < n → P (slot s m1 k)) :
    ∀ k, k < n → P (slot s m2 k) := by
  intro k hk
  exact Rearr.forall_region h (Nat.zero_le a) hb P (fun k _ hk => hP k hk) k (Nat.zero_le k) hk

theorem shiftLoop_spec {α : Type} {compare : List α → List α → Int} {P : List α → Prop}
    (hv : ValidOn compare P) {s n : Nat} (a b c : Nat) :
    ∀ (fuel : Nat) (mem : List α) (log : List Event) (p : Nat),
      mem.length = n * s → (∀ k, k < n → P (slot s mem k)) →
      a ≤ c → c ≤ p → p < b → b ≤ n → p - c + 1 ≤ fuel →
      (∀ k, p < k → k < b → 0 < compare (slot s mem k) (slot s mem p)) →
      ∃ mem' ext p', shiftLoop compare s ((c * s : Nat) : Int) fuel ⟨mem, log⟩ ((p * s : Nat) : Int)
            = .ok (⟨mem', log ++ ext⟩, ((p' * s : Nat) : Int)) ∧
        c ≤ p' ∧ p' ≤ p ∧ Rearr s c (p + 1) mem mem' ∧ slot s mem' p' = slot s mem p ∧
        (∀ k, p' < k → k < b → 0 < compare (slot s mem' k) (slot s mem' p')) ∧
        compare (slot s mem' c) (slot s mem' p') ≤ 0 ∧
        (compare (slot s mem c) (slot s mem p) ≤ 0 → mem' = mem ∧ p' = p) ∧
        PartLog s a b ext := by
  intro fuel
  induction fuel with
  | zero => intro mem log p _ _ _ _ _ _ hf; omega
  | succ fuel ih =>
    intro mem log p hlen hP hac hcp hpb hbn hf hR
    have hbc := inBounds_slot hlen (show c < n by omega)
    have hbp := inBounds_slot hlen (show p < n by omega)
    rw [shiftLoop]
    simp only [if_pos (And.intro hbc hbp)]
    by_cases hgt : compare (slot s mem c) (slot s mem p) > 0
    · have hgt' : compare (memRead mem ((c * s : Nat) : Int) s) (memRead mem ((p * s : Nat) : Int) s) > 0 := hgt
      simp only [if_pos hgt']
      have hne : c ≠ p := by
        intro h
        rw [h, hv.refl _ (hP p (by omega))] at hgt
        omega
      have hp0 : 0 < p := by omega
      rw [addr_pred hp0]
      have hbq := inBounds_slot hlen (show p - 1 < n by omega)
      obtain ⟨mem1, h1⟩ := swap_isSome hbc hbq
      have hlen1 : mem1.length = n * s := by rw [(swap_spec h1).2.2.1, hlen]
      obtain ⟨mem2, h2⟩ := swap_isSome (inBounds_slot hlen1 (show p < n by omega))
        (inBounds_slot hlen1 (show p - 1 < n by omega))
      have hlen2 : mem2.length = n * s := by rw [(swap_spec h2).2.2.1, hlen1]
      simp only [h1, h2]
      have hr1 : Rearr s c (p + 1) mem mem1 := Rearr.of_swap h1 (by omega) (by omega)
      have hr2 : Rearr s c (p + 1) mem1 mem2 := Rearr.of_swap h2 (by omega) (by omega)
      have hr12 := hr1.trans hr2
      have hs2 : ∀ k, slot s mem2 k = slot s mem (Equiv.swap c (p - 1) (Equiv.swap p (p - 1) k)) := by
        intro k; rw [slot_swap h2, slot_swap h1]
      have hpiv : slot s mem2 (p - 1) = slot s mem p := by
        rw [hs2, Equiv.swap_apply_right, Equiv.swap_apply_of_ne_of_ne (by omega) (by omega)]
      have hbig : slot s mem2 p = slot s mem c := by
        rw [hs2, Equiv.swap_apply_left, Equiv.swap_apply_right]
      have hP2 := hr12.pres_P (show p + 1 ≤ n by omega) hP
      have hR2 : ∀ k, p - 1 < k → k < b → 0 < compare (slot s mem2 k) (slot s mem2 (p - 1)) := by
        intro k hk1 hk2
        rw [hpiv]
        by_cases hkp : k = p
        · rw [hkp, hbig]; exact hgt
        · rw [hr12.outside (show k < c ∨ p + 1 ≤ k by omega)]
          exact hR k (by omega) hk2
      obtain ⟨mem', ext, p', hrun, h3, h4, h5, h6, h7, h8, -, h10⟩ :=
        ih mem2 (log ++ [Event.compare ((c * s : Nat) : Int) ((p * s : Nat) : Int)] ++
            [Event.swap ((c * s : Nat) : Int) (((p - 1) * s : Nat) : Int)] ++
            [Event.swap ((p * s : Nat) : Int) (((p - 1) * s : Nat) : Int)])
          (p - 1) hlen2 hP2 hac (by omega) (by omega) hbn (by omega) hR2
      refine ⟨mem', [Event.compare ((c * s : Nat) : Int) ((p * s : Nat) : Int),
          Event.swap ((c * s : Nat) : Int) (((p - 1) * s : Nat) : Int),
          Event.swap ((p * s : Nat) : Int) (((p - 1) * s : Nat) : Int)] ++ ext, p', ?_,
        h3, by omega, ?_, by rw [h6, hpiv], h7, h8, fun h => absurd h (by omega), ?_⟩
      · rw [hrun]; simp
      · exact hr12.trans (h5.widen (Nat.le_refl c) (by omega))
      · exact PartLog.shift c p ext hac (by omega) hpb h10
    · have hgt' : ¬ compare (memRead mem ((c * s : Nat) : Int) s) (memRead mem ((p * s : Nat) : Int) s) > 0 := hgt
      simp only [if_neg hgt']
      refine ⟨mem, [Event.compare ((c * s : Nat) : Int) ((p * s : Nat) : Int)], p, rfl,
        hcp, Nat.le_refl p, Rearr.refl _ _ _ _, rfl, hR, by omega, fun _ => ⟨rfl, rfl⟩,
        PartLog.keep c p [] hac hcp hpb PartLog.done⟩

theorem partitionLoop_spec {α : Type} {compare : List α → List α → Int} {P : List α → Prop}
    (hv : ValidOn compare P) {s n : Nat} (hs : 0 < s) (a b : Nat) :
    ∀ (fuel : Nat) (mem : List α) (log : List Event) (c p : Nat) (v : List α),
      mem.length = n * s → (∀ k, k < n → P (slot s mem k)) →
      a ≤ c → c ≤ p + 1 → p < b → b ≤ n → p - c + 2 ≤ fuel →
      slot s mem p = v →
      (∀ k, a ≤ k → k < c → compare (slot s mem k) v ≤ 0) →
      (∀ k, p < k → k < b → 0 < compare (slot s mem k) v) →
      ∃ mem' ext p', partitionLoop compare s fuel ⟨mem, log⟩ ((c * s : Nat) : Int)
              ((p * s : Nat) : Int) = .ok (⟨mem', log ++ ext⟩, ((p' * s : Nat) : Int)) ∧
        p' ≤ p ∧ (c ≤ p → c ≤ p') ∧ (p < c → p' = p) ∧
        Rearr s c (p + 1) mem mem' ∧ slot s mem' p' = v ∧
        (∀ k, a ≤ k → k < p' → compare (slot s mem' k) v ≤ 0) ∧
        (∀ k, p' < k → k < b → 0 < compare (slot s mem' k) v) ∧
        (c < p → compare (slot s mem c) (slot s mem p) ≤ 0 → c + 1 ≤ p') ∧
        ((∀ k, c ≤ k → k < p → compare (slot s mem k) (slot s mem p) ≤ 0) →
          mem' = mem ∧ p' = p) ∧
        PartLog s a b ext := by
  intro fuel
  induction fuel with
  | zero => intro mem log c p v _ _ _ _ _ _ hf; omega
  | succ fuel ih =>
    intro mem log c p v hlen hP hac hcp hpb hbn hf hpv hL hR
    rw [partitionLoop]
    by_cases hlt : c < p
    · simp only [if_pos ((addr_lt hs).2 hlt)]
      obtain ⟨mem1, ext1, p1, hrun1, h1, h2, h3, h4, h5, h6, h7, h8⟩ :=
        shiftLoop_spec hv a b c fuel mem log p hlen hP hac (by omega) hpb hbn (by omega)
          (by rw [hpv]; exact hR)
      simp only [hrun1]
      rw [addr_succ]
      have hlen1 : mem1.length = n * s := by rw [h3.1, hlen]
      have hP1 := h3.pres_P (show p + 1 ≤ n by omega) hP
      have hpv1 : slot s mem1 p1 = v := by rw [h4, hpv]
      have hL1 : ∀ k, a ≤ k → k < c + 1 → compare (slot s mem1 k) v ≤ 0 := by
        intro k hk1 hk2
        by_cases hkc : k = c
        · rw [hkc, ← hpv1]; exact h6
        · rw [h3.outside (show k < c ∨ p + 1 ≤ k by omega)]
          exact hL k hk1 (by omega)
      obtain ⟨mem', ext2, p', hrun2, g1, g2, g3, g4, g5, g6, g7, -, g9, g10⟩ :=
        ih mem1 (log ++ ext1) (c + 1) p1 v hlen1 hP1 (by omega) (by omega) (by omega) hbn
          (by omega) hpv1 hL1 (by rw [← hpv1]; exact h5)
      refine ⟨mem', ext1 ++ ext2, p', ?_, by omega, ?_, fun h => absurd h (by omega), ?_, g5, g6,
        g7, ?_, ?_, ?_⟩
      · rw [hrun2, List.append_assoc]
      · intro _
        by_cases hc1 : c + 1 ≤ p1
        · have := g2 hc1; omega
        · have := g3 (by omega); omega
      · exact h3.trans (g4.widen (by omega) (by omega))
      · intro _ hle
        obtain ⟨-, hp1⟩ := h7 hle
        have := g2 (by omega)
        omega
      · intro hall
        obtain ⟨hm1, hp1⟩ := h7 (hall c (Nat.le_refl c) hlt)
        subst hm1
        subst hp1
        exact g9 (fun k hk1 hk2 => hall k (by omega) hk2)
      · exact h8.append_steps g10
    · simp only [if_neg (mt (addr_lt hs).1 hlt)]
      refine ⟨mem, [], p, by rw [List.append_nil], Nat.le_refl p, fun h => h,
        fun _ => rfl, Rearr.refl _ _ _ _, hpv, fun k hk1 hk2 => hL k hk1 (by omega), hR,
        fun h => absurd h hlt, fun _ => ⟨rfl, rfl⟩, PartLog.done⟩

theorem Rearr.forall_disjoint {α : Type} {s x y : Nat} {m1 m2 : List α}
    (h : Rearr s x y m1 m2) {u w : Nat} (hd : y ≤ u ∨ w ≤ x) (Q : List α → Prop)
    (hQ : ∀ k, u ≤ k → k < w → Q (slot s m1 k)) :
    ∀ k, u ≤ k → k < w → Q (slot s m2 k) := by
  intro k hk1 hk2
  rw [h.outside (show k < x ∨ y ≤ k by omega)]
  exact hQ k hk1 hk2

theorem SortedOn.of_disjoint {α : Type} {compare : List α → List α → Int} {s x y u w : Nat}
    {m1 m2 : List α} (hso : SortedOn compare s m1 u w) (h : Rearr s x y m1 m2)
    (hd : y ≤ u ∨ w ≤ x) : SortedOn compare s m2 u w := by
  intro i j hi hij hj
  rw [h.outside (show i < x ∨ y ≤ i by omega), h.outside (show j < x ∨ y ≤ j by omega)]
  exact hso i j hi hij hj

theorem region_small {a b s : Nat} (hs : 0 < s) (hab : a ≤ b) :
    (0 ≤ ((b * s : Nat) : Int) - ((a * s : Nat) : Int) ∧
      ((b * s : Nat) : Int) - ((a * s : Nat) : Int) ≤ (s : Int)) ↔ b ≤ a + 1 := by
  obtain ⟨d, rfl⟩ : ∃ d, b = a + d := ⟨b - a, by omega⟩
  have h1 : (a + d) * s = a * s + d * s := Nat.add_mul a d s
  constructor
  · rintro ⟨-, h⟩
    have h2 : d * s ≤ 1 * s := by rw [h1] at h; push_cast at h; rw [Nat.one_mul]; omega
    have := Nat.le_of_mul_le_mul_right h2 hs
    omega
  · intro h
    have h2 : d * s ≤ 1 * s := Nat.mul_le_mul_right s (by omega)
    rw [Nat.one_mul] at h2
    rw [h1]; push_cast
    constructor
    · have : (0 : Int) ≤ ((d * s : Nat) : Int) := Int.ofNat_nonneg _
      push_cast at this; omega
    · have : ((d * s : Nat) : Int) ≤ (s : Int) := Int.ofNat_le.2 h2
      push_cast at this; omega

theorem branch_iff {a p b s : Nat} (hs : 0 < s) (hap : a ≤ p) (hpb : p ≤ b) :
    ((p * s : Nat) : Int) - ((a * s : Nat) : Int) <
      ((b * s : Nat) : Int) - ((p * s : Nat) : Int) ↔ p - a < b - p := by
  have h1 : (p - a) * s + a * s = p * s := by rw [← Nat.add_mul]; congr 1; omega
  have h2 : (b - p) * s + p * s = b * s := by rw [← Nat.add_mul]; congr 1; omega
  have h3 : (p - a) * s < (b - p) * s ↔ p - a < b - p := Nat.mul_lt_mul_right hs
  rw [← h3]
  omega

theorem EngineLog.append_logs {s a b : Nat} {l1 l2 : List Event} (h1 : EngineLog s a b l1)
    (h2 : EngineLog s a b l2) : EngineLog s a b (l1 ++ l2) := by
  induction h1 with
  | done => exact h2
  | call x y rest _ ih => exact EngineLog.call x y _ ih
  | keep c p rest h1 h2 h3 _ ih => exact EngineLog.keep c p _ h1 h2 h3 ih
  | shift c p rest h1 h2 h3 h4 h5 _ ih => exact EngineLog.shift c p _ h1 h2 h3 h4 h5 ih

theorem EngineLog.widenEngine {s a b a' b' : Nat} {l : List Event} (h : EngineLog s a b l)
    (ha : a' ≤ a) (hb : b ≤ b') : EngineLog s a' b' l := by
  have e1 : a' * s ≤ a * s := Nat.mul_le_mul_right s ha
  have e2 : b * s ≤ b' * s := Nat.mul_le_mul_right s hb
  induction h with
  | done => exact EngineLog.done
  | call x y rest _ ih => exact EngineLog.call x y _ ih
  | keep c p rest h1 h2 h3 _ ih => exact EngineLog.keep c p _ (by omega) h2 (by omega) ih
  | shift c p rest h1 h2 h3 h4 h5 _ ih =>
    exact EngineLog.shift c p _ (by omega) h2 h3 h4 (by omega) ih

theorem PartLog.engineLog {s a b : Nat} {l : List Event} (h : PartLog s a b l)
    (hs : 0 < s) : EngineLog s a b l := by
  induction h with
  | done => exact EngineLog.done
  | keep c p rest hc hcp hp _ ih =>
    have e1 : a * s ≤ c * s := Nat.mul_le_mul_right s hc
    have e2 : c * s ≤ p * s := Nat.mul_le_mul_right s hcp
    have e3 : (p + 1) * s ≤ b * s := Nat.mul_le_mul_right s hp
    rw [Nat.add_mul, Nat.one_mul] at e3
    exact EngineLog.keep _ _ _ (by omega) (by omega) (by omega) ih
  | shift c p rest hc hcp hp _ ih =>
    have hp0 : 0 < p := by omega
    have e1 : a * s ≤ c * s := Nat.mul_le_mul_right s hc
    have e2 : (c + 1) * s ≤ p * s := Nat.mul_le_mul_right s hcp
    have e3 : (p + 1) * s ≤ b * s := Nat.mul_le_mul_right s hp
    rw [Nat.add_mul, Nat.one_mul] at e2 e3
    have hpred := @addr_pred p s hp0
    have hsame : ((c * s : Nat) : Int) = ((p * s : Nat) : Int) - (s : Int) ∨
        ((c * s : Nat) : Int) + (s : Int) ≤ ((p * s : Nat) : Int) - (s : Int) := by
      rcases Nat.eq_or_lt_of_le (show c ≤ p - 1 by omega) with h | h
      · left; rw [hpred, h]
      · right
        have e4 : (c + 1) * s ≤ (p - 1) * s := Nat.mul_le_mul_right s h
        rw [Nat.add_mul, Nat.one_mul] at e4
        rw [hpred]; omega
    rw [← hpred]
    exact EngineLog.shift _ _ _ (by omega) (by omega) hsame (by omega) (by omega) ih

theorem qs_pair {α : Type} {compare : List α → List α → Int} {P : List α → Prop}
    (hv : ValidOn compare P) {s n fuel : Nat} (ih : QsSpec compare P s n fuel)
    (mem1 : List α) (log1 : List Event) (a p b : Nat) (hap : a ≤ p) (hpb : p < b) (hbn : b ≤ n)
    (hlen : mem1.length = n * s) (hP : ∀ k, k < n → P (slot s mem1 k)) (v : List α)
    (hpv : slot s mem1 p = v)
    (hL : ∀ k, a ≤ k → k < p → compare (slot s mem1 k) v ≤ 0)
    (hR : ∀ k, p < k → k < b → 0 < compare (slot s mem1 k) v)
    (hfuel : 2 * (b - a) ≤ fuel + 1) (hdeg : p = a → 2 * (b - a) ≤ fuel ∧ 2 ≤ b - a)
    (x1 y1 x2 y2 : Nat)
    (hord : (x1 = a ∧ y1 = p ∧ x2 = p ∧ y2 = b) ∨ (x1 = p ∧ y1 = b ∧ x2 = a ∧ y2 = p)) :
    ∃ mem2 ext1 mem3 ext2,
      quicksort_inner compare s fuel ⟨mem1, log1⟩ ((x1 * s : Nat) : Int) ((y1 * s : Nat) : Int)
        = .ok ⟨mem2, log1 ++ ext1⟩ ∧
      quicksort_inner compare s fuel ⟨mem2, log1 ++ ext1⟩ ((x2 * s : Nat) : Int)
        ((y2 * s : Nat) : Int) = .ok ⟨mem3, log1 ++ ext1 ++ ext2⟩ ∧
      Rearr s a b mem1 mem3 ∧ SortedOn compare s mem3 a b ∧
      (SortedOn compare s mem1 a p → SortedOn compare s mem1 p b → mem3 = mem1) ∧
      (∀ e ∈ ext1 ++ ext2, EventIn s a b e) ∧ CallLog s x1 y1 ext1 ∧ CallLog s x2 y2 ext2 ∧
      EngineLog s x1 y1 ext1 ∧ EngineLog s x2 y2 ext2 := by
  have hPv : P v := by rw [← hpv]; exact hP p (by omega)
  -- fuel for the left region, whatever the memory
  have fuelL : ∀ m : List α, FuelOK compare s fuel m a p := by
    intro m; left; omega
  -- fuel for the right region, when the pivot and the right part are in place
  have fuelR : ∀ m : List α, slot s m p = v →
      (∀ k, p < k → k < b → 0 < compare (slot s m k) v) → FuelOK compare s fuel m p b := by
    intro m hmv hmR
    by_cases hpa : p = a
    · right
      obtain ⟨h1, h2⟩ := hdeg hpa
      refine ⟨by omega, by omega, ?_⟩
      intro k hk1 hk2
      rw [hmv]; exact hmR k hk1 hk2
    · left; omega
  have hR1 : ∀ k, p ≤ k → k < b → compare v (slot s mem1 k) ≤ 0 := by
    intro k hk1 hk2
    by_cases hkp : k = p
    · rw [hkp, hpv, hv.refl v hPv]
    · have := (hv.antisymm _ _ (hP k (by omega)) hPv).1 (hR k (by omega) hk2)
      omega
  have hfin : ∀ mem3 : List α, (∀ k, k < n → P (slot s mem3 k)) →
      (∀ k, a ≤ k → k < p → compare (slot s mem3 k) v ≤ 0) →
      (∀ k, p ≤ k → k < b → compare v (slot s mem3 k) ≤ 0) →
      SortedOn compare s mem3 a p → SortedOn compare s mem3 p b →
      SortedOn compare s mem3 a b := by
    intro mem3 hP3 hL3 hR3 hsl hsr i j hi hij hj
    by_cases h1 : j < p
    · exact hsl i j hi hij h1
    · by_cases h2 : p ≤ i
      · exact hsr i j h2 hij hj
      · exact hv.trans _ v _ (hP3 i (by omega)) hPv (hP3 j (by omega))
          (hL3 i hi (by omega)) (hR3 j (by omega) hj)
  rcases hord with ⟨h1, h2, h3, h4⟩ | ⟨h1, h2, h3, h4⟩ <;> rw [h1, h2, h3, h4]
  · -- left region first
    obtain ⟨mem2, ext1, hrun1, hr1, hs1, hu1, he1, hc1, hg1⟩ :=
      ih mem1 log1 a p hlen hP hap (by omega) (fuelL mem1)
    have hlen2 : mem2.length = n * s := by rw [hr1.1, hlen]
    have hP2 := hr1.pres_P (show p ≤ n by omega) hP
    have hpv2 : slot s mem2 p = v := by rw [hr1.outside (Or.inr (Nat.le_refl _)), hpv]
    have hR2 : ∀ k, p < k → k < b → 0 < compare (slot s mem2 k) v :=
      fun k hk1 hk2 => by rw [hr1.outside (Or.inr (by omega))]; exact hR k hk1 hk2
    obtain ⟨mem3, ext2, hrun2, hr2, hs2, hu2, he2, hc2, hg2⟩ :=
      ih mem2 (log1 ++ ext1) p b hlen2 hP2 (by omega) hbn (fuelR mem2 hpv2 hR2)
    refine ⟨mem2, ext1, mem3, ext2, hrun1, hrun2,
      (hr1.widen (Nat.le_refl _) (by omega)).trans (hr2.widen hap (Nat.le_refl _)), ?_, ?_, ?_,
      hc1, hc2, hg1, hg2⟩
    · apply hfin mem3 (hr2.pres_P hbn hP2)
      · exact hr2.forall_disjoint (Or.inr (Nat.le_refl _)) (fun x => compare x v ≤ 0)
          (hr1.forall_region (Nat.le_refl _) (Nat.le_refl _) (fun x => compare x v ≤ 0) hL)
      · exact hr2.forall_region (Nat.le_refl _) (Nat.le_refl _) (fun x => compare v x ≤ 0)
          (hr1.forall_disjoint (Or.inl (Nat.le_refl _)) (fun x => compare v x ≤ 0) hR1)
      · exact hs1.of_disjoint hr2 (Or.inr (Nat.le_refl _))
      · exact hs2
    · intro hsl hsr
      have h12 := hu1 hsl
      subst h12
      exact hu2 hsr
    · intro e he
      rcases List.mem_append.1 he with he | he
      · exact (he1 e he).widenEvent (Nat.le_refl _) (by omega)
      · exact (he2 e he).widenEvent hap (Nat.le_refl _)
  · -- right region first
    obtain ⟨mem2, ext1, hrun1, hr1, hs1, hu1, he1, hc1, hg1⟩ :=
      ih mem1 log1 p b hlen hP (by omega) hbn (fuelR mem1 hpv hR)
    have hlen2 : mem2.length = n * s := by rw [hr1.1, hlen]
    have hP2 := hr1.pres_P hbn hP
    obtain ⟨mem3, ext2, hrun2, hr2, hs2, hu2, he2, hc2, hg2⟩ :=
      ih mem2 (log1 ++ ext1) a p hlen2 hP2 hap (by omega) (fuelL mem2)
    refine ⟨mem2, ext1, mem3, ext2, hrun1, hrun2,
      (hr1.widen hap (Nat.le_refl _)).trans (hr2.widen (Nat.le_refl _) (by omega)), ?_, ?_, ?_,
      hc1, hc2, hg1, hg2⟩
    · apply hfin mem3 (hr2.pres_P (by omega) hP2)
      · exact hr2.forall_region (Nat.le_refl _) (Nat.le_refl _) (fun x => compare x v ≤ 0)
          (hr1.forall_disjoint (Or.inr (Nat.le_refl _)) (fun x => compare x v ≤ 0) hL)
      · exact hr2.forall_disjoint (Or.inl (Nat.le_refl _)) (fun x => compare v x ≤ 0)
          (hr1.forall_region (Nat.le_refl _) (Nat.le_refl _) (fun x => compare v x ≤ 0) hR1)
      · exact hs2
      · exact hs1.of_disjoint hr2 (Or.inl (Nat.le_refl _))
    · intro hsl hsr
      have h12 := hu1 hsr
      subst h12
      exact hu2 hsl
    · intro e he
      rcases List.mem_append.1 he with he | he
      · exact (he1 e he).widenEvent hap (Nat.le_refl _)
      · exact (he2 e he).widenEvent (Nat.le_refl _) (by omega)

theorem quicksort_inner_spec {α : Type} {compare : List α → List α → Int} {P : List α → Prop}
    (hv : ValidOn compare P) {s : Nat} (hs : 0 < s) (n : Nat) :
    ∀ fuel : Nat, QsSpec compare P s n fuel := by
  intro fuel
  induction fuel with
  | zero =>
    intro mem log a b _ _ _ _ hf
    rcases hf with hf | ⟨h1, h2, -⟩ <;> omega
  | succ fuel ih =>
    intro mem log a b hlen hP hab hbn hf
    have hcall : EventIn s a b (Event.call ((a * s : Nat) : Int) ((b * s : Nat) : Int)) :=
      ⟨a, b, Nat.le_refl a, hab, Nat.le_refl b, rfl, rfl⟩
    rw [quicksort_inner]
    by_cases hsmall : b ≤ a + 1
    · simp only [if_pos ((region_small hs hab).2 hsmall)]
      refine ⟨mem, [Event.call ((a * s : Nat) : Int) ((b * s : Nat) : Int)], rfl,
        Rearr.refl _ _ _ _, ?_, fun _ => rfl, ?_, CallLog.leaf a b hab hsmall,
        EngineLog.call _ _ _ EngineLog.done⟩
      · intro i j hi hij hj; omega
      · intro e he
        rw [List.mem_singleton.1 he]; exact hcall
    · simp only [if_neg (mt (region_small hs hab).1 hsmall)]
      rw [addr_pred (show 0 < b by omega)]
      have hfuel : 2 * (b - a) ≤ fuel + 1 := by
        rcases hf with hf | ⟨-, hf, -⟩ <;> omega
      obtain ⟨mem1, ext0, p, hrun0, h1, h2, -, h4, h5, h6, h7, h8, h9, h10⟩ :=
        partitionLoop_spec hv hs a b fuel mem
          (log ++ [Event.call ((a * s : Nat) : Int) ((b * s : Nat) : Int)]) a (b - 1)
          (slot s mem (b - 1)) hlen hP (Nat.le_refl a) (by omega) (by omega) hbn (by omega) rfl
          (fun k hk1 hk2 => absurd hk2 (by omega))
          (fun k hk1 hk2 => absurd hk2 (by omega))
      simp only [hrun0]
      have hap : a ≤ p := h2 (by omega)
      have hr0 : Rearr s a b mem mem1 := h4.widen (Nat.le_refl a) (by omega)
      have hlen1 : mem1.length = n * s := by rw [hr0.1, hlen]
      have hP1 := hr0.pres_P hbn hP
      have hdeg : p = a → 2 * (b - a) ≤ fuel ∧ 2 ≤ b - a := by
        intro hpa
        rcases hf with hf | ⟨-, -, hD⟩
        · omega
        · exfalso
          have hlt := hD (b - 1) (by omega) (by omega)
          have hle := (hv.antisymm _ _ (hP (b - 1) (by omega)) (hP a (by omega))).1 hlt
          have := h8 (by omega) (by omega)
          omega
      have hpair := qs_pair hv ih mem1
        (log ++ [Event.call ((a * s : Nat) : Int) ((b * s : Nat) : Int)] ++ ext0) a p b hap
        (by omega) hbn hlen1 hP1 (slot s mem (b - 1)) h5 h6 h7 hfuel hdeg
      have hfinish : ∀ mem3 ext1 ext2, Rearr s a b mem1 mem3 → SortedOn compare s mem3 a b →
          (SortedOn compare s mem1 a p → SortedOn compare s mem1 p b → mem3 = mem1) →
          (∀ e ∈ ext1 ++ ext2, EventIn s a b e) →
          CallLog s a b ([Event.call ((a * s : Nat) : Int) ((b * s : Nat) : Int)] ++ ext0 ++
            (ext1 ++ ext2)) →
          EngineLog s a b (ext1 ++ ext2) →
          ∃ mem' ext, (Except.ok ⟨mem3, log ++ [Event.call ((a * s : Nat) : Int)
              ((b * s : Nat) : Int)] ++ ext0 ++ ext1 ++ ext2⟩ : Except Fault (State α))
                = .ok ⟨mem', log ++ ext⟩ ∧
            Rearr s a b mem mem' ∧ SortedOn compare s mem' a b ∧
            (SortedOn compare s mem a b → mem' = mem) ∧ (∀ e ∈ ext, EventIn s a b e) ∧
            CallLog s a b ext ∧ EngineLog s a b ext := by
        intro mem3 ext1 ext2 hr3 hs3 hu3 he3 hcl hg
        refine ⟨mem3, [Event.call ((a * s : Nat) : Int) ((b * s : Nat) : Int)] ++ ext0 ++
          (ext1 ++ ext2), by simp, hr0.trans hr3, hs3, ?_, ?_, hcl,
          EngineLog.call _ _ _ ((h10.engineLog hs).append_logs hg)⟩
        · intro hsorted
          obtain ⟨hm, hp⟩ := h9 (fun k hk1 hk2 => hsorted k (b - 1) hk1 hk2 (by omega))
          subst hm
          subst hp
          exact hu3 (fun i j hi hij hj => hsorted i j hi hij (by omega))
            (fun i j hi hij hj => hsorted i j (by omega) hij hj)
        · intro e he
          rcases List.mem_append.1 he with he | he
          · rcases List.mem_append.1 he with he | he
            · rw [List.mem_singleton.1 he]; exact hcall
            · exact EventIn.of_part (h10.all_events e he)
          · exact he3 e he
      by_cases hbranch : ((p * s : Nat) : Int) - ((a * s : Nat) : Int) <
          ((b * s : Nat) : Int) - ((p * s : Nat) : Int)
      · simp only [if_pos hbranch]
        obtain ⟨mem2, ext1, mem3, ext2, hrun1, hrun2, hr3, hs3, hu3, he3, hc1, hc2, hg1, hg2⟩ :=
          hpair a p p b (Or.inl ⟨rfl, rfl, rfl, rfl⟩)
        simp only [hrun1, hrun2]
        have hcl := CallLog.node a p b ext0 ext1 ext2 hap (by omega) (by omega) h10.all_events hc1 hc2
        rw [if_pos ((branch_iff hs hap (by omega)).1 hbranch)] at hcl
        exact hfinish mem3 ext1 ext2 hr3 hs3 hu3 he3 hcl
          ((hg1.widenEngine (Nat.le_refl a) (by omega)).append_logs
            (hg2.widenEngine hap (Nat.le_refl b)))
      · simp only [if_neg hbranch]
        obtain ⟨mem2, ext1, mem3, ext2, hrun1, hrun2, hr3, hs3, hu3, he3, hc1, hc2, hg1, hg2⟩ :=
          hpair p b a p (Or.inr ⟨rfl, rfl, rfl, rfl⟩)
        simp only [hrun1, hrun2]
        have hcl := CallLog.node a p b ext0 ext2 ext1 hap (by omega) (by omega) h10.all_events hc2 hc1
        rw [if_neg (mt (branch_iff hs hap (by omega)).2 hbranch)] at hcl
        exact hfinish mem3 ext1 ext2 hr3 hs3 hu3 he3 hcl
          ((hg1.widenEngine hap (Nat.le_refl b)).append_logs
            (hg2.widenEngine (Nat.le_refl a) (by omega)))

/-! ## The top-level call -/

theorem validOn_wrap32 {E : Type} (f : E → Int) (P : E → Prop)
    (h : ∀ a b, P a → P b → -2147483648 ≤ f a - f b ∧ f a - f b < 2147483648) :
    ValidOn (fun a b => wrap32 (f a - f b)) P := by
  have key : ∀ a b, P a → P b → wrap32 (f a - f b) = f a - f b := by
    intro a b ha hb
    obtain ⟨h1, h2⟩ := h a b ha hb
    unfold wrap32
    omega
  constructor
  · intro a ha
    simp only [key a a ha ha]; omega
  · intro a b ha hb
    simp only [key a b ha hb, key b a hb ha]; omega
  · intro a b c ha hb hc
    simp only [key a b ha hb, key b c hb hc, key a c ha hc]; omega

theorem quicksort_spec {α : Type} {compare : List α → List α → Int} {P : List α → Prop}
    (hv : ValidOn compare P) {s l fuel : Nat} {arr : List α} (hs : 0 < s)
    (hlen : arr.length = l * s) (hP : ∀ k, k < l → P (slot s arr k))
    (hfuel : 2 * l + 1 ≤ fuel) :
    ∃ mem' log', quicksort fuel arr l s compare = .ok ⟨mem', log'⟩ ∧
      Rearr s 0 l arr mem' ∧ SortedOn compare s mem' 0 l ∧
      (SortedOn compare s arr 0 l → mem' = arr) ∧ (∀ e ∈ log', EventIn s 0 l e) ∧
      CallLog s 0 l log' ∧ EngineLog s 0 l log' := by
  obtain ⟨mem', ext, hrun, h⟩ := quicksort_inner_spec hv hs l fuel arr [] 0 l hlen hP
    (Nat.zero_le l) (Nat.le_refl l) (Or.inl (by omega))
  refine ⟨mem', ext, ?_, h⟩
  unfold quicksort
  rw [Nat.zero_mul, List.nil_append] at hrun
  rw [Int.zero_add]
  exact hrun

theorem range_map_perm {σ : Equiv.Perm Nat} {l : Nat} (hf : ∀ k, l ≤ k → σ k = k) :
    ((List.range l).map σ).Perm (List.range l) := by
  apply (List.perm_ext_iff_of_nodup ((List.nodup_range l).map σ.injective)
    (List.nodup_range l)).2
  intro x
  simp only [List.mem_map, List.mem_range]
  have hf0 : ∀ k, k < 0 ∨ l ≤ k → σ k = k := fun k hk => hf k (by omega)
  constructor
  · rintro ⟨k, hk, rfl⟩
    exact (perm_maps_region hf0 ⟨Nat.zero_le k, hk⟩).2
  · intro hx
    refine ⟨σ.symm x, ?_, σ.apply_symm_apply x⟩
    by_contra hcon
    have : σ (σ.symm x) = σ.symm x := hf _ (by omega)
    rw [σ.apply_symm_apply] at this
    omega

theorem Rearr.elements_perm {α : Type} {s l : Nat} {m1 m2 : List α} (h : Rearr s 0 l m1 m2) :
    (elements s l m2).Perm (elements s l m1) := by
  obtain ⟨-, σ, hf, hsl⟩ := h
  have h1 : elements s l m2 = ((List.range l).map σ).map (slot s m1) := by
    unfold elements
    rw [List.map_map]
    apply List.map_congr_left
    intro k _
    exact hsl k
  rw [h1]
  exact (range_map_perm (fun k hk => hf k (Or.inr hk))).map _

theorem sortedOn_of_adjacent {α : Type} {compare : List α → List α → Int} {P : List α → Prop}
    (hv : ValidOn compare P) {s n a b : Nat} {mem : List α}
    (hP : ∀ k, k < n → P (slot s mem k)) (hbn : b ≤ n)
    (hadj : ∀ i, a ≤ i → i + 1 < b → compare (slot s mem i) (slot s mem (i + 1)) ≤ 0) :
    SortedOn compare s mem a b := by
  have key : ∀ d i, a ≤ i → i + d + 1 < b →
      compare (slot s mem i) (slot s mem (i + d + 1)) ≤ 0 := by
    intro d
    induction d with
    | zero => intro i hi hb; exact hadj i hi hb
    | succ d ih =>
      intro i hi hb
      exact hv.trans _ _ _ (hP i (by omega)) (hP (i + d + 1) (by omega))
        (hP (i + (d + 1) + 1) (by omega)) (ih i hi (by omega))
        (hadj (i + d + 1) (by omega) (by omega))
  intro i j hi hij hj
  have := key (j - i - 1) i hi (by omega)
  rwa [show i + (j - i - 1) + 1 = j by omega] at this

/-! ## The contract of `quicksort` -/

theorem icmp_validOn : ValidOn icmp IntSlot := by
  apply validOn_wrap32 readInt IntSlot
  intro a b ha hb
  unfold IntSlot at ha hb
  omega

theorem fooCmp_validOn : ValidOn fooCmp FooSlot := by
  apply validOn_wrap32 (fun e => readInt (e.drop 4)) FooSlot
  intro a b ha hb
  unfold FooSlot IntSlot at ha hb
  omega

/-- C1 (sortedness): for a buffer of `l` elements of `s > 0` cells and a comparator
that is a strict weak order on the elements of the buffer, `quicksort` returns
(with fuel `2 * l + 1` or more) and afterwards every adjacent pair of slots
satisfies `compare(arr[i], arr[i+1]) <= 0`. -/
theorem C1_sortedness {α : Type} (compare : List α → List α → Int) (P : List α → Prop)
    (arr : List α) (l s fuel : Nat) (hs : 0 < s) (hlen : arr.length = l * s)
    (hv : ValidOn compare P) (hP : ∀ k, k < l → P (slot s arr k))
    (hfuel : 2 * l + 1 ≤ fuel) :
    ∃ st, quicksort fuel arr l s compare = .ok st ∧
      ∀ i, i + 1 < l → compare (slot s st.mem i) (slot s st.mem (i + 1)) ≤ 0 := by
  obtain ⟨mem', log', hrun, -, hsorted, -⟩ := quicksort_spec hv hs hlen hP hfuel
  exact ⟨⟨mem', log'⟩, hrun, fun i hi => hsorted i (i + 1) (Nat.zero_le i) (by omega) hi⟩

/-- C1 at the records `[{0,30},{1,10},{2,20}]` compared by `value`: the values
end as `[10,20,30]`. -/
theorem C1_sortedness_witness :
    Except.map (fun st => (elements 8 3 st.mem).map (fun e => readInt (e.drop 4)))
        (quicksort 7 [0,0,0,0,30,0,0,0, 1,0,0,0,10,0,0,0, 2,0,0,0,20,0,0,0] 3 8 fooCmp)
      = .ok [10, 20, 30] ∧
    ∃ st, quicksort 7 [0,0,0,0,30,0,0,0, 1,0,0,0,10,0,0,0, 2,0,0,0,20,0,0,0] 3 8 fooCmp
        = .ok st ∧
      ∀ i, i + 1 < 3 → fooCmp (slot 8 st.mem i) (slot 8 st.mem (i + 1)) ≤ 0 :=
  ⟨by rfl, C1_sortedness fooCmp FooSlot _ 3 8 7 (by decide) (by rfl) fooCmp_validOn
    (by decide) (by decide)⟩

/-- C2 (permutation invariance): under the hypotheses of the sortedness contract,
`quicksort` returns a buffer of the same length whose multiset of elements equals
the multiset of elements of the input. -/
theorem C2_permutation {α : Type} (compare : List α → List α → Int) (P : List α → Prop)
    (arr : List α) (l s fuel : Nat) (hs : 0 < s) (hlen : arr.length = l * s)
    (hv : ValidOn compare P) (hP : ∀ k, k < l → P (slot s arr k))
    (hfuel : 2 * l + 1 ≤ fuel) :
    ∃ st, quicksort fuel arr l s compare = .ok st ∧ st.mem.length = arr.length ∧
      (Multiset.ofList (elements s l st.mem) = Multiset.ofList (elements s l arr)) := by
  obtain ⟨mem', log', hrun, hr, -⟩ := quicksort_spec hv hs hlen hP hfuel
  exact ⟨⟨mem', log'⟩, hrun, hr.1, Multiset.coe_eq_coe.2 hr.elements_perm⟩

/-- C2 at the integers `[5,3,8,1,9,2]`. -/
theorem C2_permutation_witness :
    ∃ st, quicksort 13 [5,0,0,0, 3,0,0,0, 8,0,0,0, 1,0,0,0, 9,0,0,0, 2,0,0,0] 6 4 icmp
        = .ok st ∧
      st.mem.length = [5,0,0,0, 3,0,0,0, 8,0,0,0, 1,0,0,0, 9,0,0,0, 2,0,0,0].length ∧
      (Multiset.ofList (elements 4 6 st.mem) = Multiset.ofList
        (elements 4 6 [5,0,0,0, 3,0,0,0, 8,0,0,0, 1,0,0,0, 9,0,0,0, 2,0,0,0])) :=
  C2_permutation icmp IntSlot _ 6 4 13 (by decide) (by rfl) icmp_validOn (by decide)
    (by decide)

/-- C3 (termination): under the hypotheses of the sortedness contract, `quicksort`
returns a result for every amount of fuel from `2 * l + 1` on: the recursion is
bounded, also through calls that receive the region of their parent. -/
theorem C3_termination {α : Type} (compare : List α → List α → Int) (P : List α → Prop)
    (arr : List α) (l s fuel : Nat) (hs : 0 < s) (hlen : arr.length = l * s)
    (hv : ValidOn compare P) (hP : ∀ k, k < l → P (slot s arr k))
    (hfuel : 2 * l + 1 ≤ fuel) :
    ∃ st, quicksort fuel arr l s compare = .ok st := by
  obtain ⟨mem', log', hrun, -⟩ := quicksort_spec hv hs hlen hP hfuel
  exact ⟨⟨mem', log'⟩, hrun⟩

/-- C3 at the integers `[2,1]`: the partition of `[0, 8)` leaves the pivot at
offset 0, the region `[0, 8)` is passed on again, and the run still ends. -/
theorem C3_termination_witness :
    Except.map State.log (quicksort 5 [2,0,0,0, 1,0,0,0] 2 4 icmp) =
      .ok [Event.call 0 8, Event.compare 0 4, Event.swap 0 0, Event.swap 4 0,
        Event.compare 0 0, Event.call 0 0, Event.call 0 8, Event.compare 0 4,
        Event.call 4 8, Event.call 0 4] ∧
    ∃ st, quicksort 5 [2,0,0,0, 1,0,0,0] 2 4 icmp = .ok st :=
  ⟨by rfl, C3_termination icmp IntSlot _ 2 4 5 (by decide) (by rfl) icmp_validOn (by decide)
    (by decide)⟩

/-- C4 (idempotence): under the hypotheses of the sortedness contract, a buffer
whose adjacent pairs all compare `<= 0` is returned identical to the input, and
`quicksort` applied to its own output returns that output. -/
theorem C4_idempotence {α : Type} (compare : List α → List α → Int) (P : List α → Prop)
    (arr : List α) (l s fuel : Nat) (hs : 0 < s) (hlen : arr.length = l * s)
    (hv : ValidOn compare P) (hP : ∀ k, k < l → P (slot s arr k))
    (hfuel : 2 * l + 1 ≤ fuel) :
    ((∀ i, i + 1 < l → compare (slot s arr i) (slot s arr (i + 1)) ≤ 0) →
      ∃ st, quicksort fuel arr l s compare = .ok st ∧ st.mem = arr) ∧
    ∃ st1 st2, quicksort fuel arr l s compare = .ok st1 ∧
      quicksort fuel st1.mem l s compare = .ok st2 ∧ st2.mem = st1.mem := by
  obtain ⟨mem1, log1, hrun1, hr1, hsorted1, hsame1, -⟩ := quicksort_spec hv hs hlen hP hfuel
  constructor
  · intro hadj
    refine ⟨⟨mem1, log1⟩, hrun1, hsame1 ?_⟩
    exact sortedOn_of_adjacent hv hP (Nat.le_refl l) (fun i _ hi => hadj i hi)
  · have hlen1 : mem1.length = l * s := by rw [hr1.1, hlen]
    obtain ⟨mem2, log2, hrun2, -, -, hsame2, -⟩ :=
      quicksort_spec hv hs hlen1 (hr1.pres_P (Nat.le_refl l) hP) hfuel
    exact ⟨⟨mem1, log1⟩, ⟨mem2, log2⟩, hrun1, hrun2, hsame2 hsorted1⟩

/-- C4 at the integers `[1,2,3,4,5]`, which stay `[1,2,3,4,5]`. -/
theorem C4_idempotence_witness :
    Except.map State.mem
        (quicksort 11 [1,0,0,0, 2,0,0,0, 3,0,0,0, 4,0,0,0, 5,0,0,0] 5 4 icmp)
      = .ok [1,0,0,0, 2,0,0,0, 3,0,0,0, 4,0,0,0, 5,0,0,0] ∧
    (∃ st, quicksort 11 [1,0,0,0, 2,0,0,0, 3,0,0,0, 4,0,0,0, 5,0,0,0] 5 4 icmp = .ok st ∧
        st.mem = [1,0,0,0, 2,0,0,0, 3,0,0,0, 4,0,0,0, 5,0,0,0]) ∧
    ∃ st1 st2, quicksort 11 [1,0,0,0, 2,0,0,0, 3,0,0,0, 4,0,0,0, 5,0,0,0] 5 4 icmp
        = .ok st1 ∧
      quicksort 11 st1.mem 5 4 icmp = .ok st2 ∧ st2.mem = st1.mem := by
  have h := C4_idempotence icmp IntSlot [1,0,0,0, 2,0,0,0, 3,0,0,0, 4,0,0,0, 5,0,0,0] 5 4 11
    (by decide) (by rfl) icmp_validOn (by decide) (by decide)
  refine ⟨by rfl, h.1 ?_, h.2⟩
  intro i hi
  have hi4 : i < 4 := by omega
  interval_cases i <;> decide

/-- C5 (empty and singleton boundary): for `l = 0` and `l = 1`, whatever the element
size and the comparator, `quicksort` returns the buffer unchanged and the log
holds the top-level call alone: neither the comparator nor `swap` is invoked. -/
theorem C5_boundary {α : Type} (compare : List α → List α → Int) (arr : List α)
    (l s fuel : Nat) (hl : l ≤ 1) :
    quicksort (fuel + 1) arr l s compare =
      .ok ⟨arr, [Event.call 0 ((l * s : Nat) : Int)]⟩ := by
  have h : l * s ≤ s := by
    have := Nat.mul_le_mul_right s hl
    rwa [Nat.one_mul] at this
  unfold quicksort
  rw [quicksort_inner, Int.zero_add]
  have hcond : 0 ≤ ((l * s : Nat) : Int) - 0 ∧ ((l * s : Nat) : Int) - 0 ≤ (s : Int) := by
    omega
  simp only [if_pos hcond, List.nil_append]

/-- C5 at `[]` and at `[42]`, with a comparator that is not a valid order. -/
theorem C5_boundary_witness :
    quicksort (0 + 1) ([] : List Nat) 0 4 (fun _ _ => 1) = .ok ⟨[], [Event.call 0 0]⟩ ∧
    quicksort (0 + 1) [42, 0, 0, 0] 1 4 (fun _ _ => 1) =
      .ok ⟨[42, 0, 0, 0], [Event.call 0 4]⟩ :=
  ⟨C5_boundary (fun _ _ => 1) [] 0 4 0 (by decide),
   C5_boundary (fun _ _ => 1) [42, 0, 0, 0] 1 4 0 (by decide)⟩

/-- C7 (generic swap): for two slots of `s` cells inside the buffer that do not
overlap, `swap(a, b, s)` succeeds, keeps the length of the buffer, leaves in
slot `a` the cells slot `b` held and in slot `b` the cells slot `a` held, and
changes no cell outside the two slots. -/
theorem C7_swap_exchanges {α : Type} (mem : List α) (a b : Int) (s : Nat)
    (ha : inBounds mem a s) (hb : inBounds mem b s)
    (hdisj : a + (s : Int) ≤ b ∨ b + (s : Int) ≤ a) :
    ∃ mem', swap mem a b s = some mem' ∧ mem'.length = mem.length ∧
      memRead mem' a s = memRead mem b s ∧ memRead mem' b s = memRead mem a s ∧
      ∀ t : Nat, ¬ (a ≤ (t : Int) ∧ (t : Int) < a + s) → ¬ (b ≤ (t : Int) ∧ (t : Int) < b + s) →
        mem'[t]? = mem[t]? := by
  obtain ⟨mem', hsw⟩ := swap_isSome ha hb
  obtain ⟨-, -, hl, hget⟩ := swap_spec hsw
  unfold inBounds at ha hb
  refine ⟨mem', hsw, hl, ?_, ?_, ?_⟩
  · apply List.ext_getElem?
    intro t
    rw [getElem?_memRead, getElem?_memRead]
    by_cases ht : t < s
    · rw [if_pos ht, if_pos ht, hget, if_neg (by omega), if_pos (by omega)]
      congr 1; omega
    · rw [if_neg ht, if_neg ht]
  · apply List.ext_getElem?
    intro t
    rw [getElem?_memRead, getElem?_memRead]
    by_cases ht : t < s
    · rw [if_pos ht, if_pos ht, hget, if_pos (by omega)]
      congr 1; omega
    · rw [if_neg ht, if_neg ht]
  · intro t h1 h2
    rw [hget, if_neg (by omega), if_neg (by omega)]

/-- C7 at a buffer of six cells: the slots at offsets 0 and 4 of size 2 are
exchanged and the cells in between stay. -/
theorem C7_swap_exchanges_witness :
    swap [1, 2, 3, 4, 5, 6] 0 4 2 = some [5, 6, 3, 4, 1, 2] ∧
    ∃ mem', swap [1, 2, 3, 4, 5, 6] 0 4 2 = some mem' ∧
      mem'.length = [1, 2, 3, 4, 5, 6].length ∧
      memRead mem' 0 2 = memRead [1, 2, 3, 4, 5, 6] 4 2 ∧
      memRead mem' 4 2 = memRead [1, 2, 3, 4, 5, 6] 0 2 ∧
      ∀ t : Nat, ¬ ((0 : Int) ≤ (t : Int) ∧ (t : Int) < 0 + (2 : Nat)) →
        ¬ ((4 : Int) ≤ (t : Int) ∧ (t : Int) < 4 + (2 : Nat)) →
        mem'[t]? = [1, 2, 3, 4, 5, 6][t]? :=
  ⟨by rfl, C7_swap_exchanges [1, 2, 3, 4, 5, 6] 0 4 2 (by decide) (by decide) (by decide)⟩

/-- C8 (stability is not guaranteed): the records `[(0,2),(1,2),(2,1)]` compared by
`value` with `fooCmp`, a valid comparator on them, hold two distinct records that
compare equal, `(0,2)` before `(1,2)`; after `quicksort` the record `(1,2)`
stands before `(0,2)`. -/
theorem C8_not_stable :
    ValidOn fooCmp FooSlot ∧
    (∀ k, k < 3 → FooSlot (slot 8 [0,0,0,0,2,0,0,0, 1,0,0,0,2,0,0,0, 2,0,0,0,1,0,0,0] k)) ∧
    fooCmp [0,0,0,0,2,0,0,0] [1,0,0,0,2,0,0,0] = 0 ∧
    [0,0,0,0,2,0,0,0] ≠ [1,0,0,0,2,0,0,0] ∧
    elements 8 3 [0,0,0,0,2,0,0,0, 1,0,0,0,2,0,0,0, 2,0,0,0,1,0,0,0] =
      [[0,0,0,0,2,0,0,0], [1,0,0,0,2,0,0,0], [2,0,0,0,1,0,0,0]] ∧
    Except.map (fun st => elements 8 3 st.mem)
        (quicksort 7 [0,0,0,0,2,0,0,0, 1,0,0,0,2,0,0,0, 2,0,0,0,1,0,0,0] 3 8 fooCmp) =
      .ok [[2,0,0,0,1,0,0,0], [1,0,0,0,2,0,0,0], [0,0,0,0,2,0,0,0]] :=
  ⟨fooCmp_validOn, by decide, by rfl, by decide, by rfl, by rfl⟩

theorem call_event_aligned {s a b : Nat} {x y : Int} (h : EventIn s a b (Event.call x y)) :
    ((a * s : Nat) : Int) ≤ x ∧ x ≤ y ∧ y ≤ ((b * s : Nat) : Int) ∧ (y - x) % (s : Int) = 0 := by
  obtain ⟨i, j, h1, h2, h3, rfl, rfl⟩ := h
  have e1 : a * s ≤ i * s := Nat.mul_le_mul_right s h1
  have e2 : i * s ≤ j * s := Nat.mul_le_mul_right s h2
  have e3 : j * s ≤ b * s := Nat.mul_le_mul_right s h3
  refine ⟨by omega, by omega, by omega, ?_⟩
  have e4 : ((j * s : Nat) : Int) - ((i * s : Nat) : Int) = ((j : Int) - (i : Int)) * (s : Int) := by
    push_cast; ring
  rw [e4]
  exact Int.mul_emod_left _ _

/-- C9 (region invariant): under the hypotheses of the sortedness contract, every
call of `quicksort_inner` in the log of `quicksort` is on a region
`[start, end)` with `0 <= start <= end <= l * s` and `(end - start) % s = 0`, and
the log has the shape `CallLog`: a call on a region of two or more elements
recurses into `[start, pivot)` and `[pivot, end)` for one `pivot` with
`start <= pivot < end`, two regions that are disjoint and cover the region. -/
theorem C9_region_invariant {α : Type} (compare : List α → List α → Int) (P : List α → Prop)
    (arr : List α) (l s fuel : Nat) (hs : 0 < s) (hlen : arr.length = l * s)
    (hv : ValidOn compare P) (hP : ∀ k, k < l → P (slot s arr k))
    (hfuel : 2 * l + 1 ≤ fuel) :
    ∃ st, quicksort fuel arr l s compare = .ok st ∧
      (∀ start end_ : Int, Event.call start end_ ∈ st.log →
        0 ≤ start ∧ start ≤ end_ ∧ end_ ≤ ((l * s : Nat) : Int) ∧
          (end_ - start) % (s : Int) = 0) ∧
      CallLog s 0 l st.log := by
  obtain ⟨mem', log', hrun, -, -, -, hev, hcl, -⟩ := quicksort_spec hv hs hlen hP hfuel
  refine ⟨⟨mem', log'⟩, hrun, ?_, hcl⟩
  intro x y hxy
  have := call_event_aligned (hev _ hxy)
  rw [Nat.zero_mul] at this
  exact ⟨by omega, this.2⟩

/-- C9 at the integers `[5,3,8,1,9,2]`. -/
theorem C9_region_invariant_witness :
    ∃ st, quicksort 13 [5,0,0,0, 3,0,0,0, 8,0,0,0, 1,0,0,0, 9,0,0,0, 2,0,0,0] 6 4 icmp
        = .ok st ∧
      (∀ start end_ : Int, Event.call start end_ ∈ st.log →
        0 ≤ start ∧ start ≤ end_ ∧ end_ ≤ ((6 * 4 : Nat) : Int) ∧
          (end_ - start) % ((4 : Nat) : Int) = 0) ∧
      CallLog 4 0 6 st.log :=
  C9_region_invariant icmp IntSlot _ 6 4 13 (by decide) (by rfl) icmp_validOn (by decide)
    (by decide)

/-- C10 (partition postcondition): on a region `[a, b)` of two or more elements of
a buffer of `n` elements, with a comparator valid on the elements of the buffer,
the partition loop started with `check = start` and `pivot = end - s` returns a
pivot cursor at some slot `p` with `a <= p <= b - 1` (that is
`start <= pivot <= end - s`); slot `p` holds the element that was last in the
region, and every slot of the region before `p` compares `<= 0` with it. -/
theorem C10_partition_post {α : Type} (compare : List α → List α → Int) (P : List α → Prop)
    (mem : List α) (log : List Event) (n s a b fuel : Nat) (hs : 0 < s)
    (hlen : mem.length = n * s) (hv : ValidOn compare P)
    (hP : ∀ k, k < n → P (slot s mem k)) (hab : a + 2 ≤ b) (hbn : b ≤ n)
    (hfuel : b - a + 1 ≤ fuel) :
    ∃ (st : State α) (p : Nat),
      partitionLoop compare s fuel ⟨mem, log⟩ ((a * s : Nat) : Int)
        (((b * s : Nat) : Int) - (s : Int)) = .ok (st, ((p * s : Nat) : Int)) ∧
      a ≤ p ∧ p ≤ b - 1 ∧
      ((a * s : Nat) : Int) ≤ ((p * s : Nat) : Int) ∧
      ((p * s : Nat) : Int) ≤ ((b * s : Nat) : Int) - (s : Int) ∧
      slot s st.mem p = slot s mem (b - 1) ∧
      ∀ k, a ≤ k → k < p → compare (slot s st.mem k) (slot s st.mem p) ≤ 0 := by
  obtain ⟨mem', ext, p, hrun, h1, h2, -, -, h5, h6, -⟩ :=
    partitionLoop_spec hv hs a b fuel mem log a (b - 1) (slot s mem (b - 1)) hlen hP
      (Nat.le_refl a) (by omega) (by omega) hbn (by omega) rfl
      (fun k hk1 hk2 => absurd hk2 (by omega)) (fun k hk1 hk2 => absurd hk2 (by omega))
  have hap : a ≤ p := h2 (by omega)
  have e1 : a * s ≤ p * s := Nat.mul_le_mul_right s hap
  have e2 : p * s ≤ (b - 1) * s := Nat.mul_le_mul_right s h1
  refine ⟨⟨mem', log ++ ext⟩, p, ?_, hap, h1, by omega, ?_, h5, ?_⟩
  · rw [addr_pred (show 0 < b by omega)]; exact hrun
  · rw [addr_pred (show 0 < b by omega)]; omega
  · intro k hk1 hk2
    rw [h5]; exact h6 k hk1 hk2

/-- C10 at the integers `[5,3,8,1,9,2]`: the pivot `2` ends in slot 1, after `1`. -/
theorem C10_partition_post_witness :
    Except.map (fun r => (elements 4 6 r.1.mem, r.2))
        (partitionLoop icmp 4 7
          ⟨[5,0,0,0, 3,0,0,0, 8,0,0,0, 1,0,0,0, 9,0,0,0, 2,0,0,0], []⟩
          ((0 * 4 : Nat) : Int) (((6 * 4 : Nat) : Int) - ((4 : Nat) : Int)))
      = .ok ([[1,0,0,0], [2,0,0,0], [8,0,0,0], [3,0,0,0], [9,0,0,0], [5,0,0,0]], 4) ∧
    ∃ (st : State Nat) (p : Nat),
      partitionLoop icmp 4 7 ⟨[5,0,0,0, 3,0,0,0, 8,0,0,0, 1,0,0,0, 9,0,0,0, 2,0,0,0], []⟩
        ((0 * 4 : Nat) : Int) (((6 * 4 : Nat) : Int) - ((4 : Nat) : Int))
          = .ok (st, ((p * 4 : Nat) : Int)) ∧
      0 ≤ p ∧ p ≤ 6 - 1 ∧
      ((0 * 4 : Nat) : Int) ≤ ((p * 4 : Nat) : Int) ∧
      ((p * 4 : Nat) : Int) ≤ ((6 * 4 : Nat) : Int) - ((4 : Nat) : Int) ∧
      slot 4 st.mem p = slot 4 [5,0,0,0, 3,0,0,0, 8,0,0,0, 1,0,0,0, 9,0,0,0, 2,0,0,0] (6 - 1) ∧
      ∀ k, 0 ≤ k → k < p → icmp (slot 4 st.mem k) (slot 4 st.mem p) ≤ 0 :=
  ⟨by rfl, C10_partition_post icmp IntSlot _ [] 6 4 0 6 7 (by decide) (by rfl) icmp_validOn
    (by decide) (by decide) (by decide) (by decide)⟩

/-! ## Integer buffers and the reference sort -/

theorem length_writeInt (x : Int) : (writeInt x).length = 4 := rfl

theorem readInt_writeInt {x : Int} (h1 : -2147483648 ≤ x) (h2 : x < 2147483648) :
    readInt (writeInt x) = x := by
  unfold readInt writeInt wrap32
  simp only [List.getD_cons_zero, List.getD_cons_succ]
  omega

theorem slot_append_zero {α : Type} {s : Nat} {v rest : List α} (hv : v.length = s) :
    slot s (v ++ rest) 0 = v := by
  unfold slot memRead
  simp only [Nat.zero_mul, Int.toNat_ofNat, List.drop_zero]
  exact List.take_left' hv

theorem slot_append_succ {α : Type} {s : Nat} {v rest : List α} (hv : v.length = s) (k : Nat) :
    slot s (v ++ rest) (k + 1) = slot s rest k := by
  unfold slot memRead
  simp only [Int.toNat_ofNat]
  rw [show (k + 1) * s = v.length + k * s by rw [hv, Nat.add_mul, Nat.one_mul, Nat.add_comm],
    List.drop_append]

theorem elements_append {α : Type} {s : Nat} {v rest : List α} (hv : v.length = s) (l : Nat) :
    elements s (l + 1) (v ++ rest) = v :: elements s l rest := by
  unfold elements
  rw [List.range_succ_eq_map, List.map_cons, List.map_map, slot_append_zero hv]
  congr 1
  apply List.map_congr_left
  intro k _
  exact slot_append_succ hv k

theorem elements_flatMap {α β : Type} {s : Nat} (f : β → List α) (hf : ∀ x, (f x).length = s)
    (xs : List β) : elements s xs.length (xs.flatMap f) = xs.map f := by
  induction xs with
  | nil => rfl
  | cons x xs ih =>
    rw [List.flatMap_cons, List.length_cons, elements_append (hf x), ih, List.map_cons]

theorem flatten_elements {α : Type} {s : Nat} :
    ∀ (l : Nat) (mem : List α), mem.length = l * s → (elements s l mem).flatten = mem := by
  intro l
  induction l with
  | zero =>
    intro mem h
    rw [Nat.zero_mul] at h
    rw [List.length_eq_zero.1 h]
    rfl
  | succ l ih =>
    intro mem h
    have hs : s ≤ mem.length := by rw [h, Nat.add_mul, Nat.one_mul]; omega
    have htake : (mem.take s).length = s := by rw [List.length_take]; omega
    have hdrop : (mem.drop s).length = l * s := by
      rw [List.length_drop, h, Nat.add_mul, Nat.one_mul]; omega
    have hsplit : mem = mem.take s ++ mem.drop s := (List.take_append_drop s mem).symm
    conv_lhs => rw [hsplit]
    rw [elements_append htake, List.flatten_cons, ih _ hdrop, List.take_append_drop]

theorem length_intBuffer (xs : List Int) : (intBuffer xs).length = xs.length * 4 := by
  unfold intBuffer
  induction xs with
  | nil => rfl
  | cons x xs ih =>
    rw [List.flatMap_cons, List.length_append, length_writeInt, List.length_cons, ih]
    omega

theorem decode_encode_list (xs : List Int)
    (hrw : ∀ x ∈ xs, readInt (writeInt x) = x) : (xs.map writeInt).map readInt = xs := by
  induction xs with
  | nil => rfl
  | cons x xs ih =>
    rw [List.map_cons, List.map_cons, hrw x (List.mem_cons_self x xs),
      ih (fun y hy => hrw y (List.mem_cons_of_mem x hy))]

theorem encode_decode_list (es : List (List Nat))
    (h : ∀ e ∈ es, writeInt (readInt e) = e) : (es.map readInt).map writeInt = es := by
  induction es with
  | nil => rfl
  | cons e es ih =>
    rw [List.map_cons, List.map_cons, h e (List.mem_cons_self e es),
      ih (fun y hy => h y (List.mem_cons_of_mem e hy))]

/-- C6 (agreement with the reference sort): for an `int` array `xs` of 32-bit
values on which the subtraction of `icmp` does not overflow, `quicksort` with
`icmp` on the buffer of `xs` returns the buffer of the reference ascending sort
of `xs`. -/
theorem C6_matches_reference (xs : List Int) (fuel : Nat)
    (hrange : ∀ x ∈ xs, -2147483648 ≤ x ∧ x < 2147483648)
    (hdiff : ∀ x ∈ xs, ∀ y ∈ xs, -2147483648 ≤ x - y ∧ x - y < 2147483648)
    (hfuel : 2 * xs.length + 1 ≤ fuel) :
    ∃ st, quicksort fuel (intBuffer xs) xs.length 4 icmp = .ok st ∧
      st.mem = intBuffer (referenceSort xs) := by
  -- the elements of the input buffer
  have hel : elements 4 xs.length (intBuffer xs) = xs.map writeInt :=
    elements_flatMap writeInt length_writeInt xs
  have hlen : (intBuffer xs).length = xs.length * 4 := length_intBuffer xs
  -- validity of `icmp` on the encodings of the members of `xs`
  have hrw : ∀ x ∈ xs, readInt (writeInt x) = x :=
    fun x hx => readInt_writeInt (hrange x hx).1 (hrange x hx).2
  have hv : ValidOn icmp (fun e => ∃ x ∈ xs, e = writeInt x) := by
    apply validOn_wrap32 readInt
    rintro a b ⟨x, hx, rfl⟩ ⟨y, hy, rfl⟩
    rw [hrw x hx, hrw y hy]
    exact hdiff x hx y hy
  have hP : ∀ k, k < xs.length →
      (fun e => ∃ x ∈ xs, e = writeInt x) (slot 4 (intBuffer xs) k) := by
    intro k hk
    have h1 : (elements 4 xs.length (intBuffer xs))[k]? = (xs.map writeInt)[k]? := by rw [hel]
    unfold elements at h1
    simp only [List.getElem?_map, List.getElem?_range hk, Option.map_some',
      List.getElem?_eq_getElem hk] at h1
    exact ⟨xs[k], List.getElem_mem _, Option.some.inj h1⟩
  obtain ⟨mem', log', hrun, hr, hsorted, -⟩ := quicksort_spec hv (by decide) hlen hP hfuel
  refine ⟨⟨mem', log'⟩, hrun, ?_⟩
  show mem' = intBuffer (referenceSort xs)
  have hP' : ∀ k, k < xs.length → (fun e => ∃ x ∈ xs, e = writeInt x) (slot 4 mem' k) :=
    @Rearr.pres_P _ 4 0 xs.length xs.length _ _ hr (Nat.le_refl _)
      (fun e => ∃ x ∈ xs, e = writeInt x) hP
  have hperm : (elements 4 xs.length mem').Perm (xs.map writeInt) := by
    rw [← hel]; exact hr.elements_perm
  -- every element of the result is the encoding of what it decodes to
  have hfix : ((elements 4 xs.length mem').map readInt).map writeInt =
      elements 4 xs.length mem' := by
    apply encode_decode_list
    intro e he
    obtain ⟨x, hx, hxe⟩ := List.mem_map.1 (hperm.mem_iff.1 he)
    rw [← hxe, hrw x hx]
  -- the decoded result is a sorted permutation of `xs`
  have hperm2 : ((elements 4 xs.length mem').map readInt).Perm xs := by
    have h1 := hperm.map readInt
    rwa [decode_encode_list xs hrw] at h1
  have hsort2 : ((elements 4 xs.length mem').map readInt).Sorted (· ≤ ·) := by
    unfold List.Sorted
    rw [List.pairwise_iff_getElem]
    intro i j hi hj hij
    have hi' : i < xs.length := by simpa [elements] using hi
    have hj' : j < xs.length := by simpa [elements] using hj
    simp only [elements, List.getElem_map, List.getElem_range]
    obtain ⟨x, hx, hex⟩ := hP' i hi'
    obtain ⟨y, hy, hey⟩ := hP' j hj'
    have hle := hsorted i j (Nat.zero_le i) hij hj'
    rw [hex, hey] at hle ⊢
    unfold icmp at hle
    rw [hrw x hx, hrw y hy] at hle ⊢
    have := hdiff x hx y hy
    unfold wrap32 at hle
    omega
  have heq : (elements 4 xs.length mem').map readInt = referenceSort xs :=
    List.eq_of_perm_of_sorted (hperm2.trans (List.perm_insertionSort _ xs).symm) hsort2
      (List.sorted_insertionSort _ xs)
  have hlen' : mem'.length = xs.length * 4 := by rw [hr.1, hlen]
  rw [← flatten_elements xs.length mem' hlen', ← hfix, heq]
  unfold intBuffer
  rw [List.flatMap_def]

/-- C6 at the integers `[5,3,8,1,9,2]`, which become `[1,2,3,5,8,9]`, and at
`[5,4,3,2,1]`, which become `[1,2,3,4,5]`. -/
theorem C6_matches_reference_witness :
    (intBuffer [5, 3, 8, 1, 9, 2] =
        [5,0,0,0, 3,0,0,0, 8,0,0,0, 1,0,0,0, 9,0,0,0, 2,0,0,0] ∧
      referenceSort [5, 3, 8, 1, 9, 2] = [1, 2, 3, 5, 8, 9] ∧
      Except.map State.mem (quicksort 13 (intBuffer [5, 3, 8, 1, 9, 2]) 6 4 icmp) =
        .ok [1,0,0,0, 2,0,0,0, 3,0,0,0, 5,0,0,0, 8,0,0,0, 9,0,0,0]) ∧
    (∃ st, quicksort 13 (intBuffer [5, 3, 8, 1, 9, 2]) [5, 3, 8, 1, 9, 2].length 4 icmp
        = .ok st ∧
      st.mem = intBuffer (referenceSort [5, 3, 8, 1, 9, 2])) ∧
    (referenceSort [5, 4, 3, 2, 1] = [1, 2, 3, 4, 5] ∧
      Except.map State.mem (quicksort 11 (intBuffer [5, 4, 3, 2, 1]) 5 4 icmp) =
        .ok [1,0,0,0, 2,0,0,0, 3,0,0,0, 4,0,0,0, 5,0,0,0]) ∧
    ∃ st, quicksort 11 (intBuffer [5, 4, 3, 2, 1]) [5, 4, 3, 2, 1].length 4 icmp = .ok st ∧
      st.mem = intBuffer (referenceSort [5, 4, 3, 2, 1]) :=
  ⟨⟨by rfl, by rfl, by rfl⟩,
   C6_matches_reference [5, 3, 8, 1, 9, 2] 13 (by decide) (by decide) (by decide),
   ⟨by rfl, by rfl⟩,
   C6_matches_reference [5, 4, 3, 2, 1] 11 (by decide) (by decide) (by decide)⟩

/-! ## Safety, frame and order of the engine -/

theorem compare_event_slots {s a b : Nat} {x y : Int}
    (h : PartEventIn s a b (Event.compare x y)) :
    ((a * s : Nat) : Int) ≤ x ∧ x ≤ y ∧ y + (s : Int) ≤ ((b * s : Nat) : Int) := by
  obtain ⟨i, j, h1, h2, h3, rfl, rfl⟩ := h
  have e1 : a * s ≤ i * s := Nat.mul_le_mul_right s h1
  have e2 : i * s ≤ j * s := Nat.mul_le_mul_right s h2
  have e3 : (j + 1) * s ≤ b * s := Nat.mul_le_mul_right s h3
  rw [Nat.add_mul, Nat.one_mul] at e3
  omega

theorem swap_event_slots {s a b : Nat} {x y : Int}
    (h : PartEventIn s a b (Event.swap x y)) :
    ((a * s : Nat) : Int) ≤ x ∧ ((a * s : Nat) : Int) ≤ y ∧
      x + (s : Int) ≤ ((b * s : Nat) : Int) ∧ y + (s : Int) ≤ ((b * s : Nat) : Int) ∧
      (x = y ∨ x + (s : Int) ≤ y ∨ x = y + (s : Int)) := by
  obtain ⟨i, j, h1, h2, h3, h4, h5, rfl, rfl⟩ := h
  have e1 : a * s ≤ i * s := Nat.mul_le_mul_right s h1
  have e2 : a * s ≤ j * s := Nat.mul_le_mul_right s h2
  have e3 : (i + 1) * s ≤ b * s := Nat.mul_le_mul_right s h3
  have e4 : (j + 1) * s ≤ b * s := Nat.mul_le_mul_right s h4
  rw [Nat.add_mul, Nat.one_mul] at e3 e4
  refine ⟨by omega, by omega, by omega, by omega, ?_⟩
  rcases h5 with h5 | h5
  · rcases Nat.eq_or_lt_of_le h5 with h6 | h6
    · left; rw [h6]
    · right; left
      have e5 : (i + 1) * s ≤ j * s := Nat.mul_le_mul_right s h6
      rw [Nat.add_mul, Nat.one_mul] at e5
      omega
  · right; right
    rw [h5, Nat.add_mul, Nat.one_mul]
    push_cast; ring

/-- C12 (cursor safety): on a region `[a, b)` of two or more elements of a buffer
of `n` elements, with a comparator valid on the elements of the buffer, the
partition loop returns without an out-of-range access, and its log has the
shape `PartLog`: every call of the comparator has `start <= check <= pivot`
and `pivot <= end - s`, the two swaps are only made after a comparison with
`check < pivot`, and every slot passed to `swap` lies inside `[start, end)`. -/
theorem C12_cursor_safety {α : Type} (compare : List α → List α → Int) (P : List α → Prop)
    (mem : List α) (log : List Event) (n s a b fuel : Nat) (hs : 0 < s)
    (hlen : mem.length = n * s) (hv : ValidOn compare P)
    (hP : ∀ k, k < n → P (slot s mem k)) (hab : a + 2 ≤ b) (hbn : b ≤ n)
    (hfuel : b - a + 1 ≤ fuel) :
    ∃ (st : State α) (pivot : Int) (ext : List Event),
      partitionLoop compare s fuel ⟨mem, log⟩ ((a * s : Nat) : Int)
        (((b * s : Nat) : Int) - (s : Int)) = .ok (st, pivot) ∧
      st.log = log ++ ext ∧ PartLog s a b ext ∧
      (∀ x y : Int, Event.compare x y ∈ ext →
        ((a * s : Nat) : Int) ≤ x ∧ x ≤ y ∧ y ≤ ((b * s : Nat) : Int) - (s : Int)) ∧
      (∀ x y : Int, Event.swap x y ∈ ext →
        ((a * s : Nat) : Int) ≤ x ∧ ((a * s : Nat) : Int) ≤ y ∧
          x + (s : Int) ≤ ((b * s : Nat) : Int) ∧ y + (s : Int) ≤ ((b * s : Nat) : Int)) := by
  obtain ⟨mem', ext, p, hrun, -, -, -, -, -, -, -, -, -, hpl⟩ :=
    partitionLoop_spec hv hs a b fuel mem log a (b - 1) (slot s mem (b - 1)) hlen hP
      (Nat.le_refl a) (by omega) (by omega) hbn (by omega) rfl
      (fun k hk1 hk2 => absurd hk2 (by omega)) (fun k hk1 hk2 => absurd hk2 (by omega))
  refine ⟨⟨mem', log ++ ext⟩, ((p * s : Nat) : Int), ext, ?_, rfl, hpl, ?_, ?_⟩
  · rw [addr_pred (show 0 < b by omega)]; exact hrun
  · intro x y hxy
    have := compare_event_slots (hpl.all_events _ hxy)
    omega
  · intro x y hxy
    have := swap_event_slots (hpl.all_events _ hxy)
    exact ⟨this.1, this.2.1, this.2.2.1, this.2.2.2.1⟩

/-- C12 at the integers `[5,3,8,1,9,2]`. -/
theorem C12_cursor_safety_witness :
    ∃ (st : State Nat) (pivot : Int) (ext : List Event),
      partitionLoop icmp 4 7 ⟨[5,0,0,0, 3,0,0,0, 8,0,0,0, 1,0,0,0, 9,0,0,0, 2,0,0,0], []⟩
        ((0 * 4 : Nat) : Int) (((6 * 4 : Nat) : Int) - ((4 : Nat) : Int)) = .ok (st, pivot) ∧
      st.log = [] ++ ext ∧ PartLog 4 0 6 ext ∧
      (∀ x y : Int, Event.compare x y ∈ ext →
        ((0 * 4 : Nat) : Int) ≤ x ∧ x ≤ y ∧ y ≤ ((6 * 4 : Nat) : Int) - ((4 : Nat) : Int)) ∧
      (∀ x y : Int, Event.swap x y ∈ ext →
        ((0 * 4 : Nat) : Int) ≤ x ∧ ((0 * 4 : Nat) : Int) ≤ y ∧
          x + ((4 : Nat) : Int) ≤ ((6 * 4 : Nat) : Int) ∧
          y + ((4 : Nat) : Int) ≤ ((6 * 4 : Nat) : Int)) :=
  C12_cursor_safety icmp IntSlot _ [] 6 4 0 6 7 (by decide) (by rfl) icmp_validOn
    (by decide) (by decide) (by decide) (by decide)

/-- C16 (strict right side): on a region `[a, b)` of two or more elements, with a
comparator valid on the elements of the buffer, when the partition loop ends at
pivot slot `p`, every slot of the region after `p` compares `> 0` with the
pivot value, so a slot of the region that compares `= 0` with the pivot value
is at `p` or before it. -/
theorem C16_strict_right {α : Type} (compare : List α → List α → Int) (P : List α → Prop)
    (mem : List α) (log : List Event) (n s a b fuel : Nat) (hs : 0 < s)
    (hlen : mem.length = n * s) (hv : ValidOn compare P)
    (hP : ∀ k, k < n → P (slot s mem k)) (hab : a + 2 ≤ b) (hbn : b ≤ n)
    (hfuel : b - a + 1 ≤ fuel) :
    ∃ (st : State α) (p : Nat),
      partitionLoop compare s fuel ⟨mem, log⟩ ((a * s : Nat) : Int)
        (((b * s : Nat) : Int) - (s : Int)) = .ok (st, ((p * s : Nat) : Int)) ∧
      a ≤ p ∧ p ≤ b - 1 ∧ slot s st.mem p = slot s mem (b - 1) ∧
      (∀ k, p < k → k < b → 0 < compare (slot s st.mem k) (slot s st.mem p)) ∧
      (∀ k, a ≤ k → k < b → compare (slot s st.mem k) (slot s st.mem p) = 0 → k ≤ p) := by
  obtain ⟨mem', ext, p, hrun, h1, h2, -, -, h5, -, h7, -⟩ :=
    partitionLoop_spec hv hs a b fuel mem log a (b - 1) (slot s mem (b - 1)) hlen hP
      (Nat.le_refl a) (by omega) (by omega) hbn (by omega) rfl
      (fun k hk1 hk2 => absurd hk2 (by omega)) (fun k hk1 hk2 => absurd hk2 (by omega))
  have hR : ∀ k, p < k → k < b → 0 < compare (slot s mem' k) (slot s mem' p) := by
    intro k hk1 hk2
    rw [h5]; exact h7 k hk1 hk2
  refine ⟨⟨mem', log ++ ext⟩, p, ?_, h2 (by omega), h1, h5, hR, ?_⟩
  · rw [addr_pred (show 0 < b by omega)]; exact hrun
  · intro k _ hk2 hz
    by_contra hcon
    have hpos := hR k (by omega) hk2
    have hz0 : compare (slot s mem' k) (slot s mem' p) = 0 := hz
    omega

/-- C16 at the integers `[5,3,8,1,9,2]`. -/
theorem C16_strict_right_witness :
    ∃ (st : State Nat) (p : Nat),
      partitionLoop icmp 4 7 ⟨[5,0,0,0, 3,0,0,0, 8,0,0,0, 1,0,0,0, 9,0,0,0, 2,0,0,0], []⟩
        ((0 * 4 : Nat) : Int) (((6 * 4 : Nat) : Int) - ((4 : Nat) : Int))
          = .ok (st, ((p * 4 : Nat) : Int)) ∧
      0 ≤ p ∧ p ≤ 6 - 1 ∧
      slot 4 st.mem p = slot 4 [5,0,0,0, 3,0,0,0, 8,0,0,0, 1,0,0,0, 9,0,0,0, 2,0,0,0] (6 - 1) ∧
      (∀ k, p < k → k < 6 → 0 < icmp (slot 4 st.mem k) (slot 4 st.mem p)) ∧
      (∀ k, 0 ≤ k → k < 6 → icmp (slot 4 st.mem k) (slot 4 st.mem p) = 0 → k ≤ p) :=
  C16_strict_right icmp IntSlot _ [] 6 4 0 6 7 (by decide) (by rfl) icmp_validOn
    (by decide) (by decide) (by decide) (by decide)

theorem range'_map_perm {σ : Equiv.Perm Nat} {a b : Nat}
    (hf : ∀ k, k < a ∨ b ≤ k → σ k = k) :
    ((List.range' a (b - a)).map σ).Perm (List.range' a (b - a)) := by
  apply (List.perm_ext_iff_of_nodup ((List.nodup_range' a (b - a)).map σ.injective)
    (List.nodup_range' a (b - a))).2
  intro x
  simp only [List.mem_map, List.mem_range'_1]
  constructor
  · rintro ⟨k, hk, rfl⟩
    have := perm_maps_region hf (show a ≤ k ∧ k < b by omega)
    omega
  · intro hx
    refine ⟨σ.symm x, ?_, σ.apply_symm_apply x⟩
    by_contra hcon
    have : σ (σ.symm x) = σ.symm x := hf _ (by omega)
    rw [σ.apply_symm_apply] at this
    omega

theorem Rearr.region_perm {α : Type} {s a b : Nat} {m1 m2 : List α} (h : Rearr s a b m1 m2) :
    (regionElements s a b m2).Perm (regionElements s a b m1) := by
  obtain ⟨-, σ, hf, hsl⟩ := h
  have h1 : regionElements s a b m2 = ((List.range' a (b - a)).map σ).map (slot s m1) := by
    unfold regionElements
    rw [List.map_map]
    apply List.map_congr_left
    intro k _
    exact hsl k
  rw [h1]
  exact (range'_map_perm hf).map _

/-- C15 (frame): a call of `quicksort_inner` on the slots `[a, b)` of a buffer of
`n` elements, with a comparator valid on the elements of the buffer, returns
(with fuel `2 * (b - a) + 1` or more) a buffer of the same length in which
every slot outside `[a, b)` holds what it held before, and the multiset of the
elements in the slots `[a, b)` is the one before the call. -/
theorem C15_frame {α : Type} (compare : List α → List α → Int) (P : List α → Prop)
    (mem : List α) (log : List Event) (n s a b fuel : Nat) (hs : 0 < s)
    (hlen : mem.length = n * s) (hv : ValidOn compare P)
    (hP : ∀ k, k < n → P (slot s mem k)) (hab : a ≤ b) (hbn : b ≤ n)
    (hfuel : 2 * (b - a) + 1 ≤ fuel) :
    ∃ st, quicksort_inner compare s fuel ⟨mem, log⟩ ((a * s : Nat) : Int)
        ((b * s : Nat) : Int) = .ok st ∧
      st.mem.length = mem.length ∧
      (∀ k, k < a ∨ b ≤ k → slot s st.mem k = slot s mem k) ∧
      Multiset.ofList (regionElements s a b st.mem) =
        Multiset.ofList (regionElements s a b mem) := by
  obtain ⟨mem', ext, hrun, hr, -⟩ :=
    quicksort_inner_spec hv hs n fuel mem log a b hlen hP hab hbn (Or.inl hfuel)
  exact ⟨⟨mem', log ++ ext⟩, hrun, hr.1, fun k hk => hr.outside hk,
    Multiset.coe_eq_coe.2 hr.region_perm⟩

/-- C15 at the integers `[7,3,1,2,0]`, sorting the slots `[1, 4)` only. -/
theorem C15_frame_witness :
    Except.map State.mem (quicksort_inner icmp 4 7
        ⟨[7,0,0,0, 3,0,0,0, 1,0,0,0, 2,0,0,0, 0,0,0,0], []⟩
        ((1 * 4 : Nat) : Int) ((4 * 4 : Nat) : Int))
      = .ok [7,0,0,0, 1,0,0,0, 2,0,0,0, 3,0,0,0, 0,0,0,0] ∧
    ∃ st, quicksort_inner icmp 4 7 ⟨[7,0,0,0, 3,0,0,0, 1,0,0,0, 2,0,0,0, 0,0,0,0], []⟩
        ((1 * 4 : Nat) : Int) ((4 * 4 : Nat) : Int) = .ok st ∧
      st.mem.length = [7,0,0,0, 3,0,0,0, 1,0,0,0, 2,0,0,0, 0,0,0,0].length ∧
      (∀ k, k < 1 ∨ 4 ≤ k →
        slot 4 st.mem k = slot 4 [7,0,0,0, 3,0,0,0, 1,0,0,0, 2,0,0,0, 0,0,0,0] k) ∧
      Multiset.ofList (regionElements 4 1 4 st.mem) = Multiset.ofList
        (regionElements 4 1 4 [7,0,0,0, 3,0,0,0, 1,0,0,0, 2,0,0,0, 0,0,0,0]) :=
  ⟨by rfl, C15_frame icmp IntSlot _ [] 5 4 1 4 7 (by decide) (by rfl) icmp_validOn
    (by decide) (by decide) (by decide) (by decide)⟩

/-- C17 (progress after a degenerate partition): on a region `[a, b)` of two or
more elements, with a comparator valid on the elements of the buffer, if the
partition loop ends with `pivot = start`, then the partition loop run again on
the same region of the resulting buffer ends at a slot `p2` with `start < p2`
and `p2 <= end - s`, so `[start, p2)` and `[p2, end)` are both strictly smaller
than the region. -/
theorem C17_progress {α : Type} (compare : List α → List α → Int) (P : List α → Prop)
    (mem : List α) (log : List Event) (n s a b fuel : Nat) (hs : 0 < s)
    (hlen : mem.length = n * s) (hv : ValidOn compare P)
    (hP : ∀ k, k < n → P (slot s mem k)) (hab : a + 2 ≤ b) (hbn : b ≤ n)
    (hfuel : b - a + 1 ≤ fuel) (st1 : State α)
    (hdeg : partitionLoop compare s fuel ⟨mem, log⟩ ((a * s : Nat) : Int)
      (((b * s : Nat) : Int) - (s : Int)) = .ok (st1, ((a * s : Nat) : Int))) :
    ∀ log2 : List Event, ∃ (st2 : State α) (p2 : Nat),
      partitionLoop compare s fuel ⟨st1.mem, log2⟩ ((a * s : Nat) : Int)
        (((b * s : Nat) : Int) - (s : Int)) = .ok (st2, ((p2 * s : Nat) : Int)) ∧
      a < p2 ∧ p2 ≤ b - 1 ∧ p2 - a < b - a ∧ b - p2 < b - a := by
  obtain ⟨mem1, ext1, p1, hrun1, -, -, -, h4, h5, -, h7, -⟩ :=
    partitionLoop_spec hv hs a b fuel mem log a (b - 1) (slot s mem (b - 1)) hlen hP
      (Nat.le_refl a) (by omega) (by omega) hbn (by omega) rfl
      (fun k hk1 hk2 => absurd hk2 (by omega)) (fun k hk1 hk2 => absurd hk2 (by omega))
  rw [addr_pred (show 0 < b by omega)] at hdeg
  rw [hrun1] at hdeg
  have hinj := Except.ok.inj hdeg
  have hst : st1 = ⟨mem1, log ++ ext1⟩ := (congrArg Prod.fst hinj).symm
  have hp1 : p1 = a := by
    have h := congrArg Prod.snd hinj
    have h' : ((p1 * s : Nat) : Int) = ((a * s : Nat) : Int) := h
    have h'' : p1 * s = a * s := Int.ofNat.inj h'
    exact Nat.eq_of_mul_eq_mul_right hs h''
  subst hp1
  subst hst
  have hr1 : Rearr s p1 b mem mem1 := h4.widen (Nat.le_refl _) (by omega)
  have hlen1 : mem1.length = n * s := by rw [hr1.1, hlen]
  have hP1 := hr1.pres_P hbn hP
  intro log2
  obtain ⟨mem2, ext2, p2, hrun2, g1, g2, -, -, -, -, -, g8, -⟩ :=
    partitionLoop_spec hv hs p1 b fuel mem1 log2 p1 (b - 1) (slot s mem1 (b - 1)) hlen1 hP1
      (Nat.le_refl p1) (by omega) (by omega) hbn (by omega) rfl
      (fun k hk1 hk2 => absurd hk2 (by omega)) (fun k hk1 hk2 => absurd hk2 (by omega))
  have hlt : 0 < compare (slot s mem1 (b - 1)) (slot s mem1 p1) := by
    rw [h5]; exact h7 (b - 1) (by omega) (by omega)
  have hle := (hv.antisymm _ _ (hP1 (b - 1) (by omega)) (hP1 p1 (by omega))).1 hlt
  have hprog := g8 (by omega) (by omega)
  refine ⟨⟨mem2, log2 ++ ext2⟩, p2, ?_, by omega, g1, by omega, by omega⟩
  rw [addr_pred (show 0 < b by omega)]; exact hrun2

/-- C17 at the integers `[2,1]`: the first partition ends with the pivot at
offset 0 and buffer `[1,2]`; the partition of `[1,2]` ends with the pivot at
offset 4. -/
theorem C17_progress_witness :
    Except.map (fun r => r.2) (partitionLoop icmp 4 3 ⟨[1,0,0,0, 2,0,0,0], []⟩
        ((0 * 4 : Nat) : Int) (((2 * 4 : Nat) : Int) - ((4 : Nat) : Int))) = .ok 4 ∧
    ∀ log2 : List Event, ∃ (st2 : State Nat) (p2 : Nat),
      partitionLoop icmp 4 3 ⟨[1,0,0,0, 2,0,0,0], log2⟩ ((0 * 4 : Nat) : Int)
        (((2 * 4 : Nat) : Int) - ((4 : Nat) : Int)) = .ok (st2, ((p2 * 4 : Nat) : Int)) ∧
      0 < p2 ∧ p2 ≤ 2 - 1 ∧ p2 - 0 < 2 - 0 ∧ 2 - p2 < 2 - 0 :=
  ⟨by rfl, C17_progress icmp IntSlot [2,0,0,0, 1,0,0,0] [] 2 4 0 2 3 (by decide) (by rfl)
    icmp_validOn (by decide) (by decide) (by decide) (by decide)
    ⟨[1,0,0,0, 2,0,0,0], [Event.compare 0 4, Event.swap 0 0, Event.swap 4 0,
      Event.compare 0 0]⟩ (by rfl)⟩

/-- C13 (recursion order): a call of `quicksort_inner` on a region `[a, b)` of
two or more elements, with a comparator valid on the elements of the buffer,
runs the partition loop to a pivot slot `p` and then makes two recursive calls,
the second on the state the first returns: on `[start, pivot)` and then on
`[pivot, end)` if `pivot - start < end - pivot`, otherwise on `[pivot, end)` and
then on `[start, pivot)`. The region of the second call is never smaller than
the region of the first. -/
theorem C13_recursion_order {α : Type} (compare : List α → List α → Int)
    (P : List α → Prop) (mem : List α) (log : List Event) (n s a b fuel : Nat) (hs : 0 < s)
    (hlen : mem.length = n * s) (hv : ValidOn compare P)
    (hP : ∀ k, k < n → P (slot s mem k)) (hab : a + 2 ≤ b) (hbn : b ≤ n)
    (hfuel : 2 * (b - a) ≤ fuel) :
    ∃ (st1 st2 st3 : State α) (p x1 y1 x2 y2 : Nat),
      partitionLoop compare s fuel
        ⟨mem, log ++ [Event.call ((a * s : Nat) : Int) ((b * s : Nat) : Int)]⟩
        ((a * s : Nat) : Int) (((b * s : Nat) : Int) - (s : Int))
          = .ok (st1, ((p * s : Nat) : Int)) ∧
      (if ((p * s : Nat) : Int) - ((a * s : Nat) : Int) <
            ((b * s : Nat) : Int) - ((p * s : Nat) : Int)
        then x1 = a ∧ y1 = p ∧ x2 = p ∧ y2 = b else x1 = p ∧ y1 = b ∧ x2 = a ∧ y2 = p) ∧
      quicksort_inner compare s fuel st1 ((x1 * s : Nat) : Int) ((y1 * s : Nat) : Int)
        = .ok st2 ∧
      quicksort_inner compare s fuel st2 ((x2 * s : Nat) : Int) ((y2 * s : Nat) : Int)
        = .ok st3 ∧
      quicksort_inner compare s (fuel + 1) ⟨mem, log⟩ ((a * s : Nat) : Int)
        ((b * s : Nat) : Int) = .ok st3 ∧
      (∃ first second : List Event, st2.log = st1.log ++ first ∧
        st3.log = st2.log ++ second ∧ CallLog s x1 y1 first ∧ CallLog s x2 y2 second) ∧
      y1 - x1 ≤ y2 - x2 := by
  obtain ⟨mem1, ext0, p, hrun0, h1, h2, -, h4, h5, h6, h7, -⟩ :=
    partitionLoop_spec hv hs a b fuel mem
      (log ++ [Event.call ((a * s : Nat) : Int) ((b * s : Nat) : Int)]) a (b - 1)
      (slot s mem (b - 1)) hlen hP (Nat.le_refl a) (by omega) (by omega) hbn (by omega) rfl
      (fun k hk1 hk2 => absurd hk2 (by omega))
      (fun k hk1 hk2 => absurd hk2 (by omega))
  have hap : a ≤ p := h2 (by omega)
  have hr0 : Rearr s a b mem mem1 := h4.widen (Nat.le_refl a) (by omega)
  have hlen1 : mem1.length = n * s := by rw [hr0.1, hlen]
  have hP1 := hr0.pres_P hbn hP
  have hpair := qs_pair hv (quicksort_inner_spec hv hs n fuel) mem1
    (log ++ [Event.call ((a * s : Nat) : Int) ((b * s : Nat) : Int)] ++ ext0) a p b hap
    (by omega) hbn hlen1 hP1 (slot s mem (b - 1)) h5 h6 h7 (by omega)
    (fun _ => ⟨hfuel, by omega⟩)
  have hbig : ¬ (0 ≤ ((b * s : Nat) : Int) - ((a * s : Nat) : Int) ∧
      ((b * s : Nat) : Int) - ((a * s : Nat) : Int) ≤ (s : Int)) :=
    mt (region_small hs (show a ≤ b by omega)).1 (show ¬ b ≤ a + 1 by omega)
  by_cases hbranch : ((p * s : Nat) : Int) - ((a * s : Nat) : Int) <
      ((b * s : Nat) : Int) - ((p * s : Nat) : Int)
  · obtain ⟨mem2, ext1, mem3, ext2, hrun1, hrun2, -, -, -, -, hc1, hc2, -⟩ :=
      hpair a p p b (Or.inl ⟨rfl, rfl, rfl, rfl⟩)
    refine ⟨_, _, _, p, a, p, p, b, ?_, ?_, hrun1, hrun2, ?_, ⟨ext1, ext2, rfl, rfl, hc1, hc2⟩, ?_⟩
    · rw [addr_pred (show 0 < b by omega)]; exact hrun0
    · rw [if_pos hbranch]; exact ⟨rfl, rfl, rfl, rfl⟩
    · rw [quicksort_inner]
      simp only [if_neg hbig]
      rw [addr_pred (show 0 < b by omega)]
      simp only [hrun0, if_pos hbranch, hrun1, hrun2]
    · have := (branch_iff hs hap (by omega)).1 hbranch
      omega
  · obtain ⟨mem2, ext1, mem3, ext2, hrun1, hrun2, -, -, -, -, hc1, hc2, -⟩ :=
      hpair p b a p (Or.inr ⟨rfl, rfl, rfl, rfl⟩)
    refine ⟨_, _, _, p, p, b, a, p, ?_, ?_, hrun1, hrun2, ?_, ⟨ext1, ext2, rfl, rfl, hc1, hc2⟩, ?_⟩
    · rw [addr_pred (show 0 < b by omega)]; exact hrun0
    · rw [if_neg hbranch]; exact ⟨rfl, rfl, rfl, rfl⟩
    · rw [quicksort_inner]
      simp only [if_neg hbig]
      rw [addr_pred (show 0 < b by omega)]
      simp only [hrun0, if_neg hbranch, hrun1, hrun2]
    · have := mt (branch_iff hs hap (by omega)).2 hbranch
      omega

/-- C13 at the integers `[1,3,2]` (pivot at offset 4: `[0, 4)` first, then
`[4, 12)`) and `[1,2,3]` (pivot at offset 8: `[8, 12)` first, then `[0, 8)`). -/
theorem C13_recursion_order_witness :
    (Except.map State.log (quicksort_inner icmp 4 (6 + 1) ⟨[1,0,0,0, 3,0,0,0, 2,0,0,0], []⟩
        ((0 * 4 : Nat) : Int) ((3 * 4 : Nat) : Int)) =
      .ok [Event.call 0 12, Event.compare 0 8, Event.compare 4 8, Event.swap 4 4,
        Event.swap 8 4, Event.compare 4 4, Event.call 0 4, Event.call 4 12,
        Event.compare 4 8, Event.call 8 12, Event.call 4 8] ∧
     Except.map State.log (quicksort_inner icmp 4 (6 + 1) ⟨[1,0,0,0, 2,0,0,0, 3,0,0,0], []⟩
        ((0 * 4 : Nat) : Int) ((3 * 4 : Nat) : Int)) =
      .ok [Event.call 0 12, Event.compare 0 8, Event.compare 4 8, Event.call 8 12,
        Event.call 0 8, Event.compare 0 4, Event.call 4 8, Event.call 0 4]) ∧
    ∃ (st1 st2 st3 : State Nat) (p x1 y1 x2 y2 : Nat),
      partitionLoop icmp 4 6
        ⟨[1,0,0,0, 3,0,0,0, 2,0,0,0],
          [] ++ [Event.call ((0 * 4 : Nat) : Int) ((3 * 4 : Nat) : Int)]⟩
        ((0 * 4 : Nat) : Int) (((3 * 4 : Nat) : Int) - ((4 : Nat) : Int))
          = .ok (st1, ((p * 4 : Nat) : Int)) ∧
      (if ((p * 4 : Nat) : Int) - ((0 * 4 : Nat) : Int) <
            ((3 * 4 : Nat) : Int) - ((p * 4 : Nat) : Int)
        then x1 = 0 ∧ y1 = p ∧ x2 = p ∧ y2 = 3 else x1 = p ∧ y1 = 3 ∧ x2 = 0 ∧ y2 = p) ∧
      quicksort_inner icmp 4 6 st1 ((x1 * 4 : Nat) : Int) ((y1 * 4 : Nat) : Int) = .ok st2 ∧
      quicksort_inner icmp 4 6 st2 ((x2 * 4 : Nat) : Int) ((y2 * 4 : Nat) : Int) = .ok st3 ∧
      quicksort_inner icmp 4 (6 + 1) ⟨[1,0,0,0, 3,0,0,0, 2,0,0,0], []⟩ ((0 * 4 : Nat) : Int)
        ((3 * 4 : Nat) : Int) = .ok st3 ∧
      (∃ first second : List Event, st2.log = st1.log ++ first ∧
        st3.log = st2.log ++ second ∧ CallLog 4 x1 y1 first ∧ CallLog 4 x2 y2 second) ∧
      y1 - x1 ≤ y2 - x2 :=
  ⟨⟨by rfl, by rfl⟩,
   C13_recursion_order icmp IntSlot [1,0,0,0, 3,0,0,0, 2,0,0,0] [] 3 4 0 3 6 (by decide)
    (by rfl) icmp_validOn (by decide) (by decide) (by decide) (by decide)⟩

/-- C18 (comparator validity is necessary for safety): the comparator `geCmp`
returns `1` on two equal elements. On the integers `[1,1]` the run of `quicksort`
with it stops at an out-of-range access, the last call logged being
`swap(check, pivot - s, s)` with `pivot - s = start - s = -4`. With one more
element in front of the region, the partition loop on `[4, 12)` invokes `swap`
on the slot at offset `0 = start - s`, outside the region, and then calls the
comparator with `check = 4` and `pivot = 0`, the pivot cursor before the check
cursor. -/
theorem C18_invalid_comparator_unsafe :
    geCmp [1,0,0,0] [1,0,0,0] = 1 ∧
    quicksort 20 [1,0,0,0, 1,0,0,0] 2 4 geCmp =
      .error (.outOfBounds [Event.call 0 8, Event.compare 0 4, Event.swap 0 0,
        Event.swap 4 0, Event.compare 0 0, Event.swap 0 (-4)]) ∧
    Except.map (fun r => (r.1.log, r.2))
        (partitionLoop geCmp 4 20 ⟨[9,0,0,0, 1,0,0,0, 1,0,0,0], []⟩ 4 (12 - 4)) =
      .ok ([Event.compare 4 8, Event.swap 4 4, Event.swap 8 4, Event.compare 4 4,
        Event.swap 4 0, Event.swap 4 0, Event.compare 4 0], 0) :=
  ⟨by rfl, by rfl, by rfl⟩

/-- C19 (self-swap and double swap): for a slot `a` inside the buffer,
`swap(a, a, s)` returns the buffer unchanged; and for every slot `b` inside the
buffer that does not overlap `a`, `swap(a, b, s)` applied twice returns the
original buffer. -/
theorem C19_swap_involution {α : Type} (mem : List α) (a : Int) (s : Nat)
    (ha : inBounds mem a s) :
    swap mem a a s = some mem ∧
    ∀ b : Int, inBounds mem b s → (a + (s : Int) ≤ b ∨ b + (s : Int) ≤ a) →
      ∃ mem1, swap mem a b s = some mem1 ∧ swap mem1 a b s = some mem := by
  constructor
  · obtain ⟨mem', hsw⟩ := swap_isSome ha ha
    obtain ⟨-, -, hl, hget⟩ := swap_spec hsw
    rw [hsw]
    congr 1
    apply List.ext_getElem?
    intro t
    rw [hget]
    split
    · congr 1; omega
    · rfl
  · intro b hb hdisj
    obtain ⟨mem1, hsw1⟩ := swap_isSome ha hb
    obtain ⟨-, -, hl1, hget1⟩ := swap_spec hsw1
    have ha1 : inBounds mem1 a s := by unfold inBounds at ha ⊢; rw [hl1]; exact ha
    have hb1 : inBounds mem1 b s := by unfold inBounds at hb ⊢; rw [hl1]; exact hb
    obtain ⟨mem2, hsw2⟩ := swap_isSome ha1 hb1
    obtain ⟨-, -, hl2, hget2⟩ := swap_spec hsw2
    refine ⟨mem1, hsw1, ?_⟩
    rw [hsw2]
    congr 1
    apply List.ext_getElem?
    intro t
    unfold inBounds at ha hb
    rw [hget2]
    split
    · next h1 =>
      rw [hget1, if_neg (by omega), if_pos (by omega)]
      congr 1; omega
    · next h1 =>
      split
      · next h2 =>
        rw [hget1, if_pos (by omega)]
        congr 1; omega
      · next h2 =>
        rw [hget1, if_neg h1, if_neg h2]

/-- C19 at a buffer of six cells with slots of two cells at offsets 0 and 4, and
at a buffer that is one slot. -/
theorem C19_swap_involution_witness :
    swap [1, 2, 3, 4, 5, 6] 0 0 2 = some [1, 2, 3, 4, 5, 6] ∧
    (∃ mem1, swap [1, 2, 3, 4, 5, 6] 0 4 2 = some mem1 ∧
      swap mem1 0 4 2 = some [1, 2, 3, 4, 5, 6]) ∧
    swap [7, 8] 0 0 2 = some [7, 8] :=
  ⟨(C19_swap_involution [1, 2, 3, 4, 5, 6] 0 2 (by decide)).1,
   (C19_swap_involution [1, 2, 3, 4, 5, 6] 0 2 (by decide)).2 4 (by decide) (by decide),
   (C19_swap_involution [7, 8] 0 2 (by decide)).1⟩

/-- C14 (the integer comparator on an overflowing pair): for the `int` values
`-2147483648` and `1` the first is the smaller one, yet `icmp` on their slots
returns `2147483647`, a positive value; on `1` and `-2147483648` it returns
`-2147483647`, a negative value. -/
theorem C14_icmp_overflow :
    readInt (writeInt (-2147483648)) = -2147483648 ∧ readInt (writeInt 1) = 1 ∧
    (-2147483648 : Int) < 1 ∧
    icmp (writeInt (-2147483648)) (writeInt 1) = 2147483647 ∧
    icmp (writeInt 1) (writeInt (-2147483648)) = -2147483647 := by
  refine ⟨by rfl, by rfl, by decide, by rfl, by rfl⟩

end GenericQuickSort
